import Mathlib

/-!
# Verification of the ccc/ccdrc Context Compression Engine

A shallow embedding, in Lean 4, of the core of the `jiangying000/ccc`
repository: the token estimator, the binary-search truncator, the
tool-call-JSON sanitizers and the front/back budgeted truncation algorithm
(`ClaudeContextExtractor` in `src/ccc/extractor.py`, plus
`sanitize_tool_result` from `src/ccdrc/tool_call_sanitizer.py`).

Modelling conventions:
* Python strings are Lean `String`s / `List Char`; `s[:i]` is `List.take i`.
* Python floats are modelled by exact rationals (`ℚ`).  All constants of the
  source (`3.5`, `1.8`, `1.2`, `1.1`, `/10`, `/2`, `/50`) are exactly
  representable, and every concrete evaluation appearing in a theorem below
  has been cross-checked against IEEE-754 double arithmetic.
* `int(x)` on a non-negative float is `⌊x⌋` (`Int.floor` then `Int.toNat`).
* The estimator is stated twice: `tokenEstimateQ`/`count_tokens_spec` is the
  literal translation of the source's float formula, and `count_tokens_chars`
  is an equivalent all-natural-number computation (everything scaled by
  70000) used so that concrete runs of the engine reduce inside the kernel;
  `count_tokens_chars_eq_spec` proves the two agree on every input.
* Python dicts holding transcript records are modelled by the inductive
  types `Message`/`MsgBody`/`MContent`/`Block` below, covering the record
  shapes the engine manipulates (a record with a nested `message` object
  whose `content` is a string or a list of typed blocks).
* CPython object identity and in-place mutation are modelled explicitly
  where they are observable: `extract_key_messages_full` threads a *store*
  (the list of record values held by the caller, indexed by position),
  because the source uses `id()`-based sets and `dict.copy()` (a *shallow*
  copy, which aliases the nested `message` dict).
-/

/-! ## Character helpers -/

/-- A CJK character in the sense of the source's regex `[一-鿿]`
(`src/ccc/extractor.py` line 75). -/
def isCJK (c : Char) : Bool := decide (0x4e00 ≤ c.toNat) && decide (c.toNat ≤ 0x9fff)

/-- Number of CJK characters of a text:
`len(re.findall(r"[一-鿿]", text))`. -/
def cjkCount (l : List Char) : ℕ := (l.filter isCJK).length

/-- The backtick character. -/
def backtick : Char := Char.ofNat 96

/-- The fenced-code-block marker of the source: three backticks. -/
def fenceMarker : List Char := [backtick, backtick, backtick]

/-- Boolean substring test: `needle in hay` for Python strings. -/
def listContains (needle : List Char) : List Char → Bool
  | [] => decide (needle = [])
  | c :: rest => needle.isPrefixOf (c :: rest) || listContains needle rest

/-! ## Token estimator (`count_tokens`, `src/ccc/extractor.py` lines 66-86;
the identical formula appears in `src/ccdrc/extractor.py` lines 65-110)

The exact-tokenizer branch (`self.encoder`) is an external adapter (absent
in the estimation configuration the claims address); the embedded function
is the fallback estimation path. -/

/-- The estimation computed by `count_tokens` before the final `int(...)`,
as an exact rational.  Literal translation of
`src/ccc/extractor.py` lines 73-85:
```
total_chars = len(text)
chinese_chars = len(re.findall(r"[一-鿿]", text))
non_chinese_chars = total_chars - chinese_chars
if chinese_chars > non_chinese_chars:
    estimated = (chinese_chars * 1.8) + (non_chinese_chars / 3.5)
else:
    estimated = non_chinese_chars / 3.5 + (chinese_chars * 1.8)
if "<fence>" in text: estimated *= 1.2
if text.count("\n") > len(text) / 50: estimated *= 1.1
estimated = max(total_chars / 10, min(estimated, total_chars / 2))
```
-/
def tokenEstimateQ (l : List Char) : ℚ :=
  let total_chars : ℚ := l.length
  let chinese_chars : ℚ := cjkCount l
  let non_chinese_chars : ℚ := total_chars - chinese_chars
  let estimated : ℚ :=
    if chinese_chars > non_chinese_chars then
      chinese_chars * (9/5) + non_chinese_chars / (7/2)
    else
      non_chinese_chars / (7/2) + chinese_chars * (9/5)
  let estimated := if listContains fenceMarker l then estimated * (6/5) else estimated
  let estimated := if (l.count '\n' : ℚ) > total_chars / 50 then estimated * (11/10) else estimated
  max (total_chars / 10) (min estimated (total_chars / 2))

/-- `count_tokens` of the source (estimation path): `int(estimated)`.
The estimate is non-negative, so `int` truncation is the floor. -/
def count_tokens_spec (l : List Char) : ℕ := ⌊tokenEstimateQ l⌋.toNat

/-- Kernel-executable form of the same computation: all quantities of
`tokenEstimateQ` multiplied by 70000, so that every intermediate value is a
natural number (the coefficients are `9/5`, `2/7 = 1/3.5` and their products
with the `6/5` and `11/10` bonuses, times 70000).
`count_tokens_chars_eq_spec` proves it equal to `count_tokens_spec`. -/
def count_tokens_chars (l : List Char) : ℕ :=
  let n := l.length
  let k := cjkCount l
  let m := n - k
  let e :=
    if listContains fenceMarker l then
      if 50 * l.count '\n' > n then 166320 * k + 26400 * m else 151200 * k + 24000 * m
    else
      if 50 * l.count '\n' > n then 138600 * k + 22000 * m else 126000 * k + 20000 * m
  (max (7000 * n) (min e (35000 * n))) / 70000

/-- `count_tokens` of the source (estimation path). -/
def count_tokens (s : String) : ℕ := count_tokens_chars s.data

theorem cjkCount_le_length (l : List Char) : cjkCount l ≤ l.length :=
  List.length_filter_le _ l

theorem count_tokens_chars_eq_spec (l : List Char) :
    count_tokens_chars l = count_tokens_spec l := by
  have hk : cjkCount l ≤ l.length := cjkCount_le_length l
  have hcond : (((l.count '\n' : ℕ) : ℚ) > (l.length : ℚ) / 50) ↔
      (50 * l.count '\n' > l.length) := by
    rw [gt_iff_lt, div_lt_iff₀ (by norm_num : (0:ℚ) < 50)]
    norm_cast
    omega
  have hfloor : ∀ M : ℕ, (⌊(M : ℚ) / 70000⌋).toNat = M / 70000 := by
    intro M
    rw [Int.floor_toNat, show ((70000:ℚ)) = ((70000:ℕ):ℚ) by norm_num,
      Nat.floor_div_nat, Nat.floor_natCast]
  have hclamp : ∀ e : ℕ, (max (7000 * l.length) (min e (35000 * l.length))) / 70000
      = (⌊max ((l.length : ℚ)/10) (min ((e:ℚ)/70000) ((l.length : ℚ)/2))⌋).toNat := by
    intro e
    have h70 : (0:ℚ) ≤ 70000 := by norm_num
    have key : max ((l.length : ℚ)/10) (min ((e:ℚ)/70000) ((l.length : ℚ)/2))
        = ((max (7000 * l.length) (min e (35000 * l.length)) : ℕ) : ℚ)/70000 := by
      push_cast
      rw [← max_div_div_right h70, ← min_div_div_right h70]
      congr 1
      · ring
      · congr 1
        ring
    rw [key, hfloor]
  unfold count_tokens_chars count_tokens_spec tokenEstimateQ
  dsimp only
  by_cases hf : listContains fenceMarker l = true <;>
    by_cases hnl : 50 * l.count '\n' > l.length
  · rw [if_pos hf, if_pos hnl, if_pos hf, if_pos (hcond.mpr hnl), hclamp]
    congr 2
    split_ifs <;> (push_cast [Nat.cast_sub hk]; ring_nf)
  · rw [if_pos hf, if_neg hnl, if_pos hf, if_neg (fun h => hnl (hcond.mp h)), hclamp]
    congr 2
    split_ifs <;> (push_cast [Nat.cast_sub hk]; ring_nf)
  · rw [if_neg hf, if_pos hnl, if_neg hf, if_pos (hcond.mpr hnl), hclamp]
    congr 2
    split_ifs <;> (push_cast [Nat.cast_sub hk]; ring_nf)
  · rw [if_neg hf, if_neg hnl, if_neg hf, if_neg (fun h => hnl (hcond.mp h)), hclamp]
    congr 2
    split_ifs <;> (push_cast [Nat.cast_sub hk]; ring_nf)

example : count_tokens "" = 0 := by decide
example : count_tokens "aaaa" = 1 := by decide
example : count_tokens "aaaaaaaa" = 2 := by decide
example : count_tokens_chars (List.replicate 35 'a') = 10 := by decide

/-! ## Monotonicity of the estimator in prefix length (claim C3)

The estimator is *not* monotonic in general (the `×1.1` newline-density
bonus can switch off as the prefix grows); it is monotonic on texts without
newline characters, proved below. -/

theorem listContains_nil_needle (l : List Char) : listContains [] l = true := by
  induction l with
  | nil => rfl
  | cons c rest ih => simp [listContains, ih]

theorem listContains_append_right (n l l' : List Char)
    (h : listContains n l = true) : listContains n (l ++ l') = true := by
  induction l with
  | nil =>
    simp only [listContains, decide_eq_true_eq] at h
    subst h
    exact listContains_nil_needle l'
  | cons c rest ih =>
    simp only [listContains, Bool.or_eq_true] at h ⊢
    rcases h with h | h
    · left
      exact List.isPrefixOf_iff_prefix.mpr
        ((List.isPrefixOf_iff_prefix.mp h).trans (List.prefix_append _ l'))
    · right
      exact ih h

theorem cjkCount_append (l l' : List Char) :
    cjkCount (l ++ l') = cjkCount l + cjkCount l' := by
  simp [cjkCount, List.filter_append]

/-- The base estimate (both branches of the `chinese_chars >
non_chinese_chars` test compute the same sum). -/
theorem tokenEstimateQ_base (x y : ℚ) :
    (if x > y then x * (9/5) + y / (7/2) else y / (7/2) + x * (9/5))
      = x * (9/5) + y / (7/2) := by
  split_ifs <;> ring

theorem tokenEstimateQ_append_le (l : List Char) (c : Char)
    (hnl : '\n' ∉ l ++ [c]) :
    tokenEstimateQ l ≤ tokenEstimateQ (l ++ [c]) := by
  have hc0 : l.count '\n' = 0 :=
    List.count_eq_zero.mpr (fun hm => hnl (List.mem_append_left _ hm))
  have hc0' : (l ++ [c]).count '\n' = 0 := List.count_eq_zero.mpr hnl
  have hk : cjkCount l ≤ l.length := cjkCount_le_length l
  have hk' : cjkCount (l ++ [c]) ≤ (l ++ [c]).length := cjkCount_le_length (l ++ [c])
  unfold tokenEstimateQ
  dsimp only
  rw [hc0, hc0', tokenEstimateQ_base, tokenEstimateQ_base]
  have hnlc : ¬ ((((0:ℕ)) : ℚ) > (l.length : ℚ) / 50) := by
    push_cast
    rw [gt_iff_lt, not_lt]
    positivity
  have hnlc' : ¬ ((((0:ℕ)) : ℚ) > ((l ++ [c]).length : ℚ) / 50) := by
    push_cast
    rw [gt_iff_lt, not_lt]
    positivity
  rw [if_neg hnlc, if_neg hnlc']
  have hlen : ((l ++ [c]).length : ℚ) = (l.length : ℚ) + 1 := by
    simp [List.length_append]
  have hcjk : (cjkCount (l ++ [c]) : ℚ)
      = (cjkCount l : ℚ) + (if isCJK c then 1 else 0) := by
    rw [cjkCount_append]
    by_cases hcc : isCJK c = true <;> simp [cjkCount, hcc]
  set n : ℚ := (l.length : ℚ) with hn
  set k : ℚ := (cjkCount l : ℚ) with hkdef
  have hkn : k ≤ n := by
    rw [hn, hkdef]
    exact_mod_cast hk
  have hk0 : 0 ≤ k := by
    rw [hkdef]
    positivity
  -- base estimates
  have hB : 0 ≤ k * (9/5) + (n - k) / (7/2) := by
    have h1 : 0 ≤ k * (9/5) := by positivity
    have h2 : 0 ≤ (n - k) / (7/2) := by
      apply div_nonneg _ (by norm_num)
      linarith
    linarith
  have hBle : k * (9/5) + (n - k) / (7/2)
      ≤ (cjkCount (l ++ [c]) : ℚ) * (9/5)
        + (((l ++ [c]).length : ℚ) - (cjkCount (l ++ [c]) : ℚ)) / (7/2) := by
    rw [hlen, hcjk]
    by_cases hcc : isCJK c = true
    · rw [if_pos hcc]
      nlinarith
    · rw [if_neg hcc]
      nlinarith
  have hB' : 0 ≤ (cjkCount (l ++ [c]) : ℚ) * (9/5)
      + (((l ++ [c]).length : ℚ) - (cjkCount (l ++ [c]) : ℚ)) / (7/2) :=
    le_trans hB hBle
  -- fence multipliers
  have hmul : (if listContains fenceMarker l then (k * (9/5) + (n - k) / (7/2)) * (6/5)
        else k * (9/5) + (n - k) / (7/2))
      ≤ (if listContains fenceMarker (l ++ [c]) then
            ((cjkCount (l ++ [c]) : ℚ) * (9/5)
              + (((l ++ [c]).length : ℚ) - (cjkCount (l ++ [c]) : ℚ)) / (7/2)) * (6/5)
          else (cjkCount (l ++ [c]) : ℚ) * (9/5)
              + (((l ++ [c]).length : ℚ) - (cjkCount (l ++ [c]) : ℚ)) / (7/2)) := by
    by_cases hf : listContains fenceMarker l = true
    · rw [if_pos hf, if_pos (listContains_append_right _ _ _ hf)]
      nlinarith
    · rw [if_neg hf]
      by_cases hf' : listContains fenceMarker (l ++ [c]) = true
      · rw [if_pos hf']
        nlinarith
      · rw [if_neg hf']
        exact hBle
  apply max_le_max
  · rw [hlen]
    linarith
  · apply min_le_min hmul
    rw [hlen]
    linarith

theorem count_tokens_append_le (l t : List Char) (hnl : '\n' ∉ l ++ t) :
    count_tokens_chars l ≤ count_tokens_chars (l ++ t) := by
  rw [count_tokens_chars_eq_spec, count_tokens_chars_eq_spec]
  unfold count_tokens_spec
  induction t using List.reverseRecOn with
  | nil =>
    rw [List.append_nil]
  | append_singleton ts c ih =>
    have h1 : '\n' ∉ l ++ ts := by
      intro hm
      exact hnl (by
        rw [← List.append_assoc]
        exact List.mem_append_left _ hm)
    have h2 : '\n' ∉ (l ++ ts) ++ [c] := by
      rw [List.append_assoc]
      exact hnl
    refine le_trans (ih h1) ?_
    rw [← List.append_assoc]
    exact Int.toNat_le_toNat (Int.floor_le_floor (tokenEstimateQ_append_le (l ++ ts) c h2))

/-- **Claim C3, counterexample.**  The heuristic token estimator is *not*
monotonic in prefix length: for `s = "\n" + 49*"a"`, the 49-character prefix
estimates to 15 tokens (the newline-density `×1.1` bonus applies:
`1 > 49/50`) while the full 50-character string estimates to 14 tokens
(`1 > 50/50` fails, so the bonus switches off).  Cross-checked against
IEEE-754 float evaluation of the source formula. -/
theorem C3_counterexample :
    ¬ ∀ (s : String) (i j : ℕ), i ≤ j →
        count_tokens_chars (s.data.take i) ≤ count_tokens_chars (s.data.take j) := by
  intro h
  have h1 : count_tokens_chars ((String.mk ('\n' :: List.replicate 49 'a')).data.take 49) = 15 := by
    decide
  have h2 : count_tokens_chars ((String.mk ('\n' :: List.replicate 49 'a')).data.take 50) = 14 := by
    decide
  have := h (String.mk ('\n' :: List.replicate 49 'a')) 49 50 (by norm_num)
  omega

/-- **Claim C3, amended.**  On strings containing no newline character the
heuristic estimator *is* monotonic in prefix length:
`count_tokens(s[:i]) ≤ count_tokens(s[:j])` for `i ≤ j`.  (The `×1.2`
code-fence bonus can only switch on, never off, as the prefix grows, and the
clamp `max(n/10, min(est, n/2))` is monotone componentwise; only the
newline-density bonus of the counterexample can switch off.) -/
theorem C3_monotone_no_newline (s : String) (i j : ℕ) (hij : i ≤ j)
    (hnl : '\n' ∉ s.data) :
    count_tokens_chars (s.data.take i) ≤ count_tokens_chars (s.data.take j) := by
  have hsplit : s.data.take i ++ (s.data.take j).drop i = s.data.take j := by
    have h1 : (s.data.take j).take i = s.data.take i := by
      rw [List.take_take, min_eq_left hij]
    calc s.data.take i ++ (s.data.take j).drop i
        = (s.data.take j).take i ++ (s.data.take j).drop i := by rw [h1]
      _ = s.data.take j := List.take_append_drop i (s.data.take j)
  have hnl' : '\n' ∉ s.data.take i ++ (s.data.take j).drop i := by
    rw [hsplit]
    intro hm
    exact hnl (List.mem_of_mem_take hm)
  have := count_tokens_append_le (s.data.take i) ((s.data.take j).drop i) hnl'
  rwa [hsplit] at this

/-- Witness for `C3_monotone_no_newline` at a concrete input. -/
theorem C3_monotone_no_newline_witness :
    (2 : ℕ) ≤ 5 ∧ '\n' ∉ "hello world".data ∧
      count_tokens_chars ("hello world".data.take 2)
        ≤ count_tokens_chars ("hello world".data.take 5) :=
  ⟨by norm_num, by decide, C3_monotone_no_newline "hello world" 2 5 (by norm_num) (by decide)⟩

/-! ## Binary-search truncation (`_binary_search_truncate`,
`src/ccc/extractor.py` lines 465-488; identical in `src/ccdrc/extractor.py`
lines 640-682) -/

/-- The 20-iteration bisection loop of `_binary_search_truncate`.
State `(left, right, best_pos, best_tokens)`; Python's `left >= right - 1`
break test agrees with truncated `ℕ` subtraction (for `right = 0` both sides
are trivially true). -/
def bstLoop (chars : List Char) (target : ℕ) : ℕ → ℕ → ℕ → ℕ → ℕ → ℕ
  | 0, _, _, best_pos, _ => best_pos
  | fuel+1, left, right, best_pos, best_tokens =>
    if left ≥ right - 1 then best_pos
    else
      let mid := (left + right) / 2
      let tokens := count_tokens_chars (chars.take mid)
      if tokens ≤ target then
        if tokens > best_tokens then
          bstLoop chars target fuel mid right mid tokens
        else
          bstLoop chars target fuel mid right best_pos best_tokens
      else
        bstLoop chars target fuel left mid best_pos best_tokens

/-- `_binary_search_truncate(content, target_tokens)` of the source:
binary-search the best cut position to stay under `target_tokens`. -/
def _binary_search_truncate (content : List Char) (target_tokens : ℕ) : List Char :=
  if content = [] then []
  else if count_tokens_chars content ≤ target_tokens then content
  else content.take (bstLoop content target_tokens 20 0 content.length 0 0)

theorem bstLoop_le (chars : List Char) (target : ℕ) :
    ∀ (fuel left right best_pos best_tokens : ℕ),
      count_tokens_chars (chars.take best_pos) ≤ target →
      count_tokens_chars
        (chars.take (bstLoop chars target fuel left right best_pos best_tokens)) ≤ target := by
  intro fuel
  induction fuel with
  | zero =>
    intro left right best_pos best_tokens h
    simpa [bstLoop] using h
  | succ n ih =>
    intro left right best_pos best_tokens h
    unfold bstLoop
    dsimp only
    split_ifs with h1 h2 h3
    · exact h
    · exact ih _ _ _ _ h2
    · exact ih _ _ _ _ h
    · exact ih _ _ _ _ h

/-- The returned cut never exceeds the target and is a prefix of the
input. -/
theorem truncate_le_target (content : List Char) (target_tokens : ℕ) :
    count_tokens_chars (_binary_search_truncate content target_tokens) ≤ target_tokens ∧
      _binary_search_truncate content target_tokens <+: content := by
  unfold _binary_search_truncate
  split_ifs with h1 h2
  · subst h1
    refine ⟨?_, List.nil_prefix⟩
    have h0 : count_tokens_chars [] = 0 := by decide
    omega
  · exact ⟨h2, List.prefix_refl _⟩
  · constructor
    · have h0 : count_tokens_chars (content.take 0) ≤ target_tokens := by
        simp [count_tokens_chars, cjkCount, listContains]
      exact bstLoop_le content target_tokens 20 0 content.length 0 0 h0
    · exact List.take_prefix _ _

/-- **Claim C4, amended.**  `_binary_search_truncate` always returns a
prefix of `content` whose token count does not exceed `target_tokens`
(this is the "never exceeds" half of the claim; the "longest such prefix"
half is refuted by `C4_counterexample`). -/
theorem C4_truncate_le_target (content : List Char) (target_tokens : ℕ) :
    count_tokens_chars (_binary_search_truncate content target_tokens) ≤ target_tokens ∧
      _binary_search_truncate content target_tokens <+: content :=
  truncate_le_target content target_tokens

/-- **Claim C4, counterexample** (to the "longest prefix" part).  For
`content = "aaaaaaaa"` and `target = 1` the loop returns the 4-character
prefix (`best_pos` is only advanced on a strict token-count increase, so the
equal-count 6-character prefix is skipped), yet the 6-character prefix is a
longer prefix whose token count still fits the target. -/
theorem C4_counterexample :
    _binary_search_truncate "aaaaaaaa".data 1 = "aaaa".data ∧
      "aaaaaa".data <+: "aaaaaaaa".data ∧
      count_tokens_chars "aaaaaa".data ≤ 1 ∧
      ("aaaa".data).length < ("aaaaaa".data).length :=
  ⟨by decide, by decide, by decide, by decide⟩

/-! ## Embedded-tool-JSON cleaning (`clean_tool_json` inside
`_clean_tool_call_pollution`, `src/ccc/extractor.py` lines 423-437;
identical in `src/ccdrc/extractor.py` lines 582-608)

The source applies six `re.sub` substitutions in order.  Each regex has one
of three shapes, and for these shapes Python's leftmost/greedy backtracking
semantics collapse to a deterministic scan, embedded below:

* `\[Tool:\s*NAME\]\s*\{[^}]*"k1"[^}]*"k2"[^}]*\}` — since all body atoms
  exclude a closing brace, the final `\}` can only match the *first* brace
  closing after the opening one, and the body test is "the required key
  strings occur in order, disjointly, inside that body" (taking the first
  occurrence of each key is complete, since any later witness occurrence
  leaves less room for the remaining keys).
* `\[Tool:\s*(\w+)\]\s*\{[^}]*"input"[^}]*\}` — same, with a greedy
  nonempty word capture (maximal run: any shorter run would have to be
  followed by the literal `]`, which is not a word character position).
* `\[Tool:\s*(\w+)\]\s*\{"[^"]+"\s*:\s*"[^"]+"\}` — each `[^"]+` is a
  maximal nonempty run up to the next quote.

`re.sub` replaces the leftmost match, never rescans replacement text, and
continues after the match; `subPat` below scans left to right accordingly
(fuel: one unit per input position, and every match consumes at least the
six marker characters).  Python's `\s`/`\w` match Unicode classes; they are
modelled by their ASCII parts, which covers every string handled in the
theorems below. -/

/-- ASCII part of Python's regex class `\s`. -/
def isPySpace (c : Char) : Bool :=
  c == ' ' || c == '\t' || c == '\n' || c == '\r' || c == Char.ofNat 11 || c == Char.ofNat 12

/-- ASCII part of Python's regex class `\w`. -/
def isWordChar (c : Char) : Bool := c.isAlphanum || c == '_'

/-- Opening curly brace (written by code point to keep the source plain). -/
def lbrace : Char := Char.ofNat 123

/-- Closing curly brace. -/
def rbrace : Char := Char.ofNat 125

/-- Consume a literal, returning the remainder. -/
def dropLit (lit : List Char) (l : List Char) : Option (List Char) :=
  if lit.isPrefixOf l then some (l.drop lit.length) else none

/-- Split at the first closing brace: body (brace-free) and remainder after
the brace. -/
def breakAtRBrace (l : List Char) : Option (List Char × List Char) :=
  match l.dropWhile (fun c => c != rbrace) with
  | c :: r => if c == rbrace then some (l.takeWhile (fun c => c != rbrace), r) else none
  | [] => none

/-- Find the first occurrence of `k` and return the suffix after it. -/
def dropAfterSub (k : List Char) : List Char → Option (List Char)
  | [] => if k = [] then some [] else none
  | c :: rest =>
    if k.isPrefixOf (c :: rest) then some ((c :: rest).drop k.length)
    else dropAfterSub k rest

/-- The key strings occur in order (disjointly) in the body. -/
def containsInOrder : List (List Char) → List Char → Bool
  | [], _ => true
  | k :: ks, body =>
    match dropAfterSub k body with
    | some rest => containsInOrder ks rest
    | none => false

/-- The literal tool marker `[Tool:` shared by all six regexes. -/
def toolMarker : List Char := "[Tool:".data

/-- After the closing `]` of the tool tag: `\s*\{[^}]*"k1"...[^}]*\}` with
the required `keys` in order.  Returns the remainder after the match. -/
def matchToolBody (keys : List (List Char)) (l : List Char) : Option (List Char) := do
  let l2 := l.dropWhile isPySpace
  let l3 ← dropLit [lbrace] l2
  let (body, rest) ← breakAtRBrace l3
  if containsInOrder keys body then some rest else none

/-- Matcher for `\[Tool:\s*NAME\]\s*\{[^}]*"k1"[^}]*...\}` at the head of
`l`; on success returns (remainder after the match, replacement). -/
def matchKeyed (name : List Char) (keys : List (List Char)) (repl : List Char)
    (l : List Char) : Option (List Char × List Char) := do
  let l1 ← dropLit toolMarker l
  let l2 := l1.dropWhile isPySpace
  let l3 ← dropLit (name ++ [']']) l2
  let rest ← matchToolBody keys l3
  some (rest, repl)

/-- Matcher for `\[Tool:\s*(\w+)\]\s*\{[^}]*"input"[^}]*\}`, replacement
`[Used tool: \1]`. -/
def matchGenericInput (l : List Char) : Option (List Char × List Char) := do
  let l1 ← dropLit toolMarker l
  let l2 := l1.dropWhile isPySpace
  let w := l2.takeWhile isWordChar
  if w = [] then none
  else do
    let l3 ← dropLit [']'] (l2.dropWhile isWordChar)
    let rest ← matchToolBody ["\"input\"".data] l3
    some (rest, "[Used tool: ".data ++ w ++ [']'])

/-- Matcher for `\[Tool:\s*(\w+)\]\s*\{"[^"]+"\s*:\s*"[^"]+"\}`, replacement
`[Used tool: \1]`. -/
def matchGenericSimple (l : List Char) : Option (List Char × List Char) := do
  let l1 ← dropLit toolMarker l
  let l2 := l1.dropWhile isPySpace
  let w := l2.takeWhile isWordChar
  if w = [] then none
  else do
    let l3 ← dropLit [']'] (l2.dropWhile isWordChar)
    let l4 := l3.dropWhile isPySpace
    let l5 ← dropLit [lbrace, '"'] l4
    let q1 := l5.takeWhile (fun c => c != '"')
    if q1 = [] then none
    else do
      let l6 ← dropLit ['"'] (l5.dropWhile (fun c => c != '"'))
      let l7 := l6.dropWhile isPySpace
      let l8 ← dropLit [':'] l7
      let l9 := l8.dropWhile isPySpace
      let l10 ← dropLit ['"'] l9
      let q2 := l10.takeWhile (fun c => c != '"')
      if q2 = [] then none
      else do
        let l11 ← dropLit ['"', rbrace] (l10.dropWhile (fun c => c != '"'))
        some (l11, "[Used tool: ".data ++ w ++ [']'])

/-- One `re.sub` pass: scan left to right, replace the leftmost match,
continue after it (replacement text is never rescanned). -/
def subPat (m : List Char → Option (List Char × List Char)) : ℕ → List Char → List Char
  | 0, l => l
  | _ + 1, [] => []
  | fuel + 1, c :: rest =>
    match m (c :: rest) with
    | some (rem, repl) => repl ++ subPat m fuel rem
    | none => c :: subPat m fuel rest

/-- The six substitutions of `clean_tool_json`, in source order. -/
def cleanPatterns : List (List Char → Option (List Char × List Char)) :=
  [ matchKeyed "Write".data ["\"file_path\"".data, "\"content\"".data] "[Created file]".data,
    matchKeyed "Edit".data ["\"file_path\"".data, "\"old_string\"".data] "[Edited file]".data,
    matchKeyed "Bash".data ["\"command\"".data] "[Executed command]".data,
    matchKeyed "Grep".data ["\"pattern\"".data] "[Searched]".data,
    matchGenericInput,
    matchGenericSimple ]

/-- `clean_tool_json(text)` of the source: the `if not text or "[Tool:" not
in text: return text` guard, then the six substitutions in order. -/
def clean_tool_json (text : String) : String :=
  if text = "" || !(listContains toolMarker text.data) then text
  else String.mk (cleanPatterns.foldl (fun acc p => subPat p acc.length acc) text.data)

example :
    clean_tool_json "[Tool: Write] \x7b\"file_path\": \"/test.py\", \"content\": \"code\"\x7d"
      = "[Created file]" := by decide
example :
    clean_tool_json "[Tool: Bash] \x7b\"command\": \"ls -la\"\x7d" = "[Executed command]" := by
  decide
example : clean_tool_json "API \x7b\"status\": 200\x7d" = "API \x7b\"status\": 200\x7d" := by
  decide

/-- **Claim C2, counterexample.**  `clean_tool_json` is *not* idempotent.
For
`x = '[Tool: Write] {"file_path": "a", [Tool: Bash] {"command": "c"} "content": "b"}'`
the first pass cannot match the Write pattern (the first closing brace —
the one ending the embedded Bash fragment — arrives before `"content"`),
but it rewrites the Bash fragment to `[Executed command]`, which removes
that brace; the second pass then matches the Write pattern and produces
`[Created file]`. -/
theorem C2_counterexample :
    clean_tool_json (clean_tool_json
        "[Tool: Write] \x7b\"file_path\": \"a\", [Tool: Bash] \x7b\"command\": \"c\"\x7d \"content\": \"b\"\x7d")
      ≠ clean_tool_json
        "[Tool: Write] \x7b\"file_path\": \"a\", [Tool: Bash] \x7b\"command\": \"c\"\x7d \"content\": \"b\"\x7d" := by
  decide

/-- The two passes of the counterexample, explicitly. -/
theorem C2_counterexample_values :
    clean_tool_json
        "[Tool: Write] \x7b\"file_path\": \"a\", [Tool: Bash] \x7b\"command\": \"c\"\x7d \"content\": \"b\"\x7d"
      = "[Tool: Write] \x7b\"file_path\": \"a\", [Executed command] \"content\": \"b\"\x7d" ∧
    clean_tool_json
        "[Tool: Write] \x7b\"file_path\": \"a\", [Executed command] \"content\": \"b\"\x7d"
      = "[Created file]" := by
  constructor
  · decide
  · decide

/-- An occurrence of the `[Tool:` marker with an opening brace anywhere
after it.  Every one of the six regexes starts with `\[Tool:` and contains
a literal `\x7b`, so a text on which this is `false` matches none of them. -/
def hasMarkerBrace : List Char → Bool
  | [] => false
  | c :: rest =>
    (toolMarker.isPrefixOf (c :: rest)
        && decide (lbrace ∈ (c :: rest).drop toolMarker.length))
      || hasMarkerBrace rest

theorem isPrefixOf_head_mem (a : Char) (tail l : List Char)
    (h : (a :: tail).isPrefixOf l = true) : a ∈ l := by
  cases l with
  | nil => simp [List.isPrefixOf] at h
  | cons b bs =>
    simp only [List.isPrefixOf, Bool.and_eq_true, beq_iff_eq] at h
    rw [h.1]
    exact List.mem_cons_self _ _

theorem dropLit_eq_some (lit l r : List Char) (h : dropLit lit l = some r) :
    r = l.drop lit.length := by
  unfold dropLit at h
  by_cases hq : lit.isPrefixOf l = true
  · rw [if_pos hq] at h
    exact (Option.some.inj h).symm
  · rw [if_neg hq] at h
    cases h

theorem dropLit_not_mem (lit l r : List Char) (c : Char) (h : dropLit lit l = some r)
    (hc : c ∉ l) : c ∉ r := by
  rw [dropLit_eq_some lit l r h]
  intro hm
  exact hc ((List.drop_sublist _ _).subset hm)

theorem dropWhile_not_mem (p : Char → Bool) (l : List Char) (c : Char) (hc : c ∉ l) :
    c ∉ l.dropWhile p :=
  fun hm => hc ((List.dropWhile_sublist p).subset hm)

theorem dropLit_lbrace_none (tail l : List Char) (h : lbrace ∉ l) :
    dropLit (lbrace :: tail) l = none := by
  have hnp : ¬ ((lbrace :: tail).isPrefixOf l = true) :=
    fun hp => h (isPrefixOf_head_mem _ _ _ hp)
  unfold dropLit
  rw [if_neg hnp]

/-- A tool-tag body `\s*\{...\}` cannot match on a brace-free text. -/
theorem matchToolBody_none (keys : List (List Char)) (l : List Char) (h : lbrace ∉ l) :
    matchToolBody keys l = none := by
  have h2 : lbrace ∉ l.dropWhile isPySpace := dropWhile_not_mem _ _ _ h
  unfold matchToolBody
  dsimp only
  rw [dropLit_lbrace_none [] _ h2]
  rfl

/-- A keyed pattern cannot match when no brace follows the marker. -/
theorem matchKeyed_none (name : List Char) (keys : List (List Char)) (repl : List Char)
    (l : List Char)
    (h : toolMarker.isPrefixOf l = true → lbrace ∉ l.drop toolMarker.length) :
    matchKeyed name keys repl l = none := by
  unfold matchKeyed
  cases hd : dropLit toolMarker l with
  | none => rfl
  | some l1 =>
    have hp : toolMarker.isPrefixOf l = true := by
      by_cases hq : toolMarker.isPrefixOf l = true
      · exact hq
      · unfold dropLit at hd
        rw [if_neg hq] at hd
        cases hd
    have hnb : lbrace ∉ l1 := by
      rw [dropLit_eq_some _ _ _ hd]
      exact h hp
    simp only [Option.bind_eq_bind, Option.some_bind']
    cases hdl : dropLit (name ++ [']']) (l1.dropWhile isPySpace) with
    | none => rfl
    | some l3 =>
      have hl3 : lbrace ∉ l3 :=
        dropLit_not_mem _ _ _ _ hdl (dropWhile_not_mem _ _ _ hnb)
      simp only [Option.bind_eq_bind, Option.some_bind']
      rw [matchToolBody_none keys l3 hl3]
      rfl

/-- The generic `"input"` pattern cannot match when no brace follows the
marker. -/
theorem matchGenericInput_none (l : List Char)
    (h : toolMarker.isPrefixOf l = true → lbrace ∉ l.drop toolMarker.length) :
    matchGenericInput l = none := by
  unfold matchGenericInput
  cases hd : dropLit toolMarker l with
  | none => rfl
  | some l1 =>
    have hp : toolMarker.isPrefixOf l = true := by
      by_cases hq : toolMarker.isPrefixOf l = true
      · exact hq
      · unfold dropLit at hd
        rw [if_neg hq] at hd
        cases hd
    have hnb : lbrace ∉ l1 := by
      rw [dropLit_eq_some _ _ _ hd]
      exact h hp
    simp only [Option.bind_eq_bind, Option.some_bind']
    by_cases hw : (l1.dropWhile isPySpace).takeWhile isWordChar = []
    · rw [if_pos hw]
    · rw [if_neg hw]
      cases hdl : dropLit [']'] ((l1.dropWhile isPySpace).dropWhile isWordChar) with
      | none => rfl
      | some l3 =>
        have hl3 : lbrace ∉ l3 :=
          dropLit_not_mem _ _ _ _ hdl
            (dropWhile_not_mem _ _ _ (dropWhile_not_mem _ _ _ hnb))
        simp only [Option.bind_eq_bind, Option.some_bind']
        rw [matchToolBody_none _ l3 hl3]
        rfl

/-- The generic simple pattern cannot match when no brace follows the
marker. -/
theorem matchGenericSimple_none (l : List Char)
    (h : toolMarker.isPrefixOf l = true → lbrace ∉ l.drop toolMarker.length) :
    matchGenericSimple l = none := by
  unfold matchGenericSimple
  cases hd : dropLit toolMarker l with
  | none => rfl
  | some l1 =>
    have hp : toolMarker.isPrefixOf l = true := by
      by_cases hq : toolMarker.isPrefixOf l = true
      · exact hq
      · unfold dropLit at hd
        rw [if_neg hq] at hd
        cases hd
    have hnb : lbrace ∉ l1 := by
      rw [dropLit_eq_some _ _ _ hd]
      exact h hp
    simp only [Option.bind_eq_bind, Option.some_bind']
    by_cases hw : (l1.dropWhile isPySpace).takeWhile isWordChar = []
    · rw [if_pos hw]
    · rw [if_neg hw]
      cases hdl : dropLit [']'] ((l1.dropWhile isPySpace).dropWhile isWordChar) with
      | none => rfl
      | some l3 =>
        have hl4 : lbrace ∉ l3.dropWhile isPySpace :=
          dropWhile_not_mem _ _ _
            (dropLit_not_mem _ _ _ _ hdl
              (dropWhile_not_mem _ _ _ (dropWhile_not_mem _ _ _ hnb)))
        simp only [Option.bind_eq_bind, Option.some_bind']
        rw [dropLit_lbrace_none ['"'] _ hl4]
        rfl

/-- None of the six substitutions matches at a position without a
marker-then-brace occurrence. -/
theorem cleanPatterns_none (m : List Char → Option (List Char × List Char))
    (hm : m ∈ cleanPatterns) (l : List Char)
    (h : toolMarker.isPrefixOf l = true → lbrace ∉ l.drop toolMarker.length) :
    m l = none := by
  simp only [cleanPatterns, List.mem_cons, List.not_mem_nil, or_false] at hm
  rcases hm with rfl | rfl | rfl | rfl | rfl | rfl
  · exact matchKeyed_none _ _ _ l h
  · exact matchKeyed_none _ _ _ l h
  · exact matchKeyed_none _ _ _ l h
  · exact matchKeyed_none _ _ _ l h
  · exact matchGenericInput_none l h
  · exact matchGenericSimple_none l h

theorem hasMarkerBrace_head (c : Char) (rest : List Char)
    (h : hasMarkerBrace (c :: rest) = false) :
    (toolMarker.isPrefixOf (c :: rest) = true →
      lbrace ∉ (c :: rest).drop toolMarker.length) ∧ hasMarkerBrace rest = false := by
  unfold hasMarkerBrace at h
  rcases Bool.or_eq_false_iff.mp h with ⟨h1, h2⟩
  refine ⟨?_, h2⟩
  intro hp hmem
  rw [hp] at h1
  simp at h1
  exact h1 hmem

/-- A substitution pass is the identity on a text with no marker-then-brace
occurrence. -/
theorem subPat_id (m : List Char → Option (List Char × List Char))
    (hm : ∀ l', (toolMarker.isPrefixOf l' = true → lbrace ∉ l'.drop toolMarker.length) →
      m l' = none) :
    ∀ (l : List Char) (fuel : ℕ), hasMarkerBrace l = false → subPat m fuel l = l := by
  intro l
  induction l with
  | nil =>
    intro fuel _
    cases fuel with
    | zero => rfl
    | succ f => rfl
  | cons c rest ih =>
    intro fuel h
    obtain ⟨hhead, htail⟩ := hasMarkerBrace_head c rest h
    cases fuel with
    | zero => rfl
    | succ f =>
      unfold subPat
      rw [hm _ hhead]
      show c :: subPat m f rest = c :: rest
      rw [ih f htail]

theorem foldl_subPat_id (l : List Char) (h : hasMarkerBrace l = false) :
    ∀ ps : List (List Char → Option (List Char × List Char)),
      (∀ p ∈ ps, ∀ l', (toolMarker.isPrefixOf l' = true →
          lbrace ∉ l'.drop toolMarker.length) → p l' = none) →
      ps.foldl (fun acc p => subPat p acc.length acc) l = l := by
  intro ps
  induction ps with
  | nil =>
    intro _
    rfl
  | cons p ps ih =>
    intro hps
    rw [List.foldl_cons]
    rw [subPat_id p (hps p (List.mem_cons_self _ _)) l l.length h]
    exact ih (fun q hq => hps q (List.mem_cons_of_mem _ hq))

/-- `clean_tool_json` is the identity on any text with no `[Tool:` marker
followed by an opening brace (whether or not the guard fires). -/
theorem clean_tool_json_marker_free (y : String) (h : hasMarkerBrace y.data = false) :
    clean_tool_json y = y := by
  unfold clean_tool_json
  split_ifs with hg
  · rfl
  · rw [foldl_subPat_id y.data h cleanPatterns (fun p hp => cleanPatterns_none p hp)]

/-- **Claim C2, amended.**  `clean_tool_json` is idempotent on every text
whose *cleaned form* contains no `[Tool:` marker followed (anywhere later)
by an opening brace: every one of the six regexes needs a marker and a
subsequent brace, so the second application finds no match and is the
identity.  This covers in particular full matches that clean to marker-free
placeholders.  Unrestricted idempotence is false (`C2_counterexample`):
a nested tool fragment can leave a marker-then-brace occurrence in the
output. -/
theorem C2_idempotent_of_cleaned_marker_free (x : String)
    (h : hasMarkerBrace (clean_tool_json x).data = false) :
    clean_tool_json (clean_tool_json x) = clean_tool_json x :=
  clean_tool_json_marker_free (clean_tool_json x) h

/-- Witness for `C2_idempotent_of_cleaned_marker_free` at a concrete input
that *is* rewritten by the first pass: the Bash tool call cleans to the
marker-free `[Executed command]`, so the hypothesis holds and the second
pass is a no-op. -/
theorem C2_idempotent_of_cleaned_marker_free_witness :
    hasMarkerBrace (clean_tool_json "[Tool: Bash] \x7b\"command\": \"c\"\x7d").data = false ∧
      clean_tool_json "[Tool: Bash] \x7b\"command\": \"c\"\x7d" = "[Executed command]" ∧
      clean_tool_json (clean_tool_json "[Tool: Bash] \x7b\"command\": \"c\"\x7d")
        = clean_tool_json "[Tool: Bash] \x7b\"command\": \"c\"\x7d" :=
  ⟨by decide, by decide,
    C2_idempotent_of_cleaned_marker_free "[Tool: Bash] \x7b\"command\": \"c\"\x7d" (by decide)⟩

/-! ## Tool-result sanitization (`sanitize_tool_result`,
`src/ccdrc/tool_call_sanitizer.py` lines 101-127)

Python's `str.strip()` and `str.lower()` act on Unicode; they are modelled
by their ASCII parts (`isPySpace`, `Char.toLower`), which covers every
string handled in the theorems below. -/

/-- `s.strip()`: remove leading and trailing whitespace. -/
def pyStrip (l : List Char) : List Char :=
  ((l.dropWhile isPySpace).reverse.dropWhile isPySpace).reverse

/-- `s.lower()` (ASCII model). -/
def pyLower (l : List Char) : List Char := l.map Char.toLower

/-- `sanitize_tool_result(result_content, max_length)` of
`src/ccdrc/tool_call_sanitizer.py`:
empty → `[Tool completed]`; strip; contains `error` (case-insensitive) →
`[Tool error occurred]`; contains `success` → `[Tool succeeded]`; longer
than `max_length` → `[Tool output: N chars]`; otherwise `[Result: ...]`.
(`max_length` defaults to 100 in the source.) -/
def sanitize_tool_result (result_content : String) (max_length : ℕ) : String :=
  if result_content = "" then "[Tool completed]"
  else
    let rc := pyStrip result_content.data
    if listContains "error".data (pyLower rc) then "[Tool error occurred]"
    else if listContains "success".data (pyLower rc) then "[Tool succeeded]"
    else if rc.length > max_length then "[Tool output: " ++ toString rc.length ++ " chars]"
    else "[Result: " ++ String.mk rc ++ "]"

example : sanitize_tool_result "Compilation ERROR on line 3" 100 = "[Tool error occurred]" := by
  decide
example : sanitize_tool_result "Success!" 100 = "[Tool succeeded]" := by decide

/-- **Claim C6, counterexample.**  A short payload with neither marker is
*not* passed through verbatim: it is wrapped as `[Result: ...]`. -/
theorem C6_counterexample :
    sanitize_tool_result "hi" 100 = "[Result: hi]" ∧ sanitize_tool_result "hi" 100 ≠ "hi" :=
  ⟨by decide, by decide⟩

/-- **Claim C6, amended.**  For a non-empty payload, `sanitize_tool_result`
classifies the *stripped* payload in order: contains `"error"`
(case-insensitively) → error placeholder; else contains `"success"` →
success placeholder; else longer than `max_length` → length-only
placeholder; otherwise the stripped payload *wrapped in a `[Result: ...]`
placeholder* (not verbatim). -/
theorem C6_characterization (p : String) (maxLen : ℕ) (hp : p ≠ "") :
    (listContains "error".data (pyLower (pyStrip p.data)) = true →
        sanitize_tool_result p maxLen = "[Tool error occurred]") ∧
    (listContains "error".data (pyLower (pyStrip p.data)) = false →
      listContains "success".data (pyLower (pyStrip p.data)) = true →
        sanitize_tool_result p maxLen = "[Tool succeeded]") ∧
    (listContains "error".data (pyLower (pyStrip p.data)) = false →
      listContains "success".data (pyLower (pyStrip p.data)) = false →
      (pyStrip p.data).length > maxLen →
        sanitize_tool_result p maxLen
          = "[Tool output: " ++ toString (pyStrip p.data).length ++ " chars]") ∧
    (listContains "error".data (pyLower (pyStrip p.data)) = false →
      listContains "success".data (pyLower (pyStrip p.data)) = false →
      ¬ ((pyStrip p.data).length > maxLen) →
        sanitize_tool_result p maxLen = "[Result: " ++ String.mk (pyStrip p.data) ++ "]") := by
  unfold sanitize_tool_result
  rw [if_neg hp]
  refine ⟨fun h1 => ?_, fun h1 h2 => ?_, fun h1 h2 h3 => ?_, fun h1 h2 h3 => ?_⟩
  · simp [h1]
  · simp [h1, h2]
  · simp [h1, h2, h3]
  · simp [h1, h2, h3]

/-- Witness for `C6_characterization` at a concrete input: payload `"hi"`
with `max_length = 100` falls into the pass-through-wrapped case. -/
theorem C6_characterization_witness :
    ("hi" : String) ≠ "" ∧
      (listContains "error".data (pyLower (pyStrip "hi".data)) = false →
        listContains "success".data (pyLower (pyStrip "hi".data)) = false →
        ¬ ((pyStrip "hi".data).length > 100) →
          sanitize_tool_result "hi" 100 = "[Result: " ++ String.mk (pyStrip "hi".data) ++ "]") :=
  ⟨by decide, (C6_characterization "hi" 100 (by decide)).2.2.2⟩

/-! ## Transcript records (`_get_message_content`,
`src/ccc/extractor.py` lines 601-646)

A record is a parsed JSONL dict.  The engine inspects `msg["message"]`
(a dict) and its `content` (a string, or a list of typed block dicts).
Records without a `message` dict, or whose body has no `content`, extract
to the empty string (the source's other top-level fallbacks, `text` /
`thinking` directly on the record, are not part of the shapes the claims
exercise).  The recursion-depth guard (`depth > 10`) of the source can
never fire on these shapes (depth ≤ 2).  The package's own
`tool_call_sanitizer` (`src/ccc/tool_call_sanitizer.py`) reduces every tool
call to `[Tool: NAME]` and every tool result to `[Tool Result]`. -/

/-- One element of a `content` array. -/
inductive Block where
  | text (t : String)
  | thinking (th : String) (sig : String)
  | tool_use (name : String) (input : List (String × String))
  | tool_result_str (c : String)
  | tool_result_list (n : ℕ)
  | str_item (s : String)
  deriving DecidableEq

/-- The `content` of a message body: a plain string or a block list. -/
inductive MContent where
  | str (s : String)
  | blocks (l : List Block)
  deriving DecidableEq

/-- The nested `message` dict (only its `content` matters to the engine). -/
structure MsgBody where
  content : Option MContent
  deriving DecidableEq

/-- One transcript record. -/
structure Message where
  message : Option MsgBody
  deriving DecidableEq

instance : Inhabited Message := ⟨⟨none⟩⟩

/-- `sanitize_tool_call` of `src/ccc/tool_call_sanitizer.py` (the fallback
shortener actually imported by `ccc.extractor`): ignores the input map. -/
def ccc_sanitize_tool_call (tool_name : String) (_tool_input : List (String × String)) : String :=
  "[Tool: " ++ tool_name ++ "]"

/-- `sanitize_tool_result` of `src/ccc/tool_call_sanitizer.py`. -/
def ccc_sanitize_tool_result (_result_content : String) : String := "[Tool Result]"

/-- Text fragments contributed by one block
(`src/ccc/extractor.py` lines 613-638). -/
def blockTexts : Block → List String
  | .text t => if t = "" then [] else [t]
  | .thinking th sig =>
      (if th = "" then [] else ["[Thinking] " ++ th])
        ++ (if sig = "" then [] else ["[Signature] " ++ sig])
  | .tool_use name input => [ccc_sanitize_tool_call name input]
  | .tool_result_str c => if c = "" then [] else [ccc_sanitize_tool_result c]
  | .tool_result_list n => ["[Tool results: " ++ toString n ++ " items]"]
  | .str_item s => [s]

/-- Fragments contributed by the `content` field. -/
def contentTexts : MContent → List String
  | .str s => if s = "" then [] else [s]
  | .blocks l => l.flatMap blockTexts

/-- All fragments of one record. -/
def msgTexts (m : Message) : List String :=
  match m.message with
  | some b =>
    match b.content with
    | some c => contentTexts c
    | none => []
  | none => []

/-- `"\n".join(texts)` over character lists. -/
def joinTexts : List (List Char) → List Char
  | [] => []
  | [x] => x
  | x :: y :: rest => x ++ '\n' :: joinTexts (y :: rest)

/-- Character-level content of `_get_message_content(msg)`. -/
def msgChars (m : Message) : List Char := joinTexts ((msgTexts m).map String.data)

/-- `_get_message_content(msg)` of the source. -/
def _get_message_content (m : Message) : String := String.mk (msgChars m)

/-- The token cost the engine attaches to one record:
`count_tokens(content) if content else 0` (`src/ccc/extractor.py`
lines 516-523 and the recount at lines 590-594 use the same expression). -/
def message_cost (m : Message) : ℕ :=
  if msgChars m = [] then 0 else count_tokens_chars (msgChars m)

/-- `message_tokens` of `extract_key_messages`: per record, the extracted
content and its token cost (computed once, before any truncation). -/
def tokenize (msgs : List Message) : List (List Char × ℕ) :=
  msgs.map (fun m => (msgChars m, message_cost m))

example :
    _get_message_content ⟨some ⟨some (.blocks [.text "hi", .thinking "deep" "", .tool_use "Bash" [("command", "ls")]])⟩⟩
      = "hi\n[Thinking] deep\n[Tool: Bash]" := by decide
example : _get_message_content ⟨some ⟨some (.str "")⟩⟩ = "" := by decide

/-! ## `extract_key_messages` (`src/ccc/extractor.py` lines 490-599)

The algorithm: tokenize every record once; a front pass accumulates whole
records while they fit `front_tokens`, with an optional binary-search cut of
the first overflowing record when more than 100 tokens of headroom remain; a
back pass does the same in reverse against `back_tokens`, skipping records
already claimed whole by the front pass (an `id()`-based set); the merge
walks the records in order and emits those contained (by dict equality,
`msg in front_messages or msg in back_messages`) in either selection; the
extracted token total is recomputed by re-extracting every merged record.

CPython semantics made explicit in the embedding:

* `truncated_msg = msg.copy()` is a **shallow** copy: the copy shares the
  nested `message` dict, so writing the truncated text (lines 546/549 and
  577/580) mutates the caller's record in place.  The embedding therefore
  threads a `store : List Message` — the current value of the caller's
  record list, identified by position — and a cut updates the store at the
  boundary index.  Because copy and original share the mutated body (and
  the outer dict copy is equal key-for-key), the truncated copy stays equal
  to the stored record at all later times, so `front_messages` /
  `temp_back` are represented by the selected indices
  (`selWhole ++ boundary`), membership being value equality against the
  current store.
* The `id()`-set skip of the back pass (line 556-560) contains the ids of
  the whole records kept by the front pass and of the *fresh* truncated
  copy; the original boundary record is therefore *not* skipped, which the
  `frontWhole` index list reproduces.
* The loop tuples `(msg, content, tokens)` carry the contents and costs
  computed *before* any mutation; the back pass therefore measures the
  original content of a record even if the front pass already truncated it
  in place, exactly as the source does.
-/

/-- `"\n\n[...内容已截断...]\n"`, appended after a front cut (line 546). -/
def FRONT_TRUNC_MARKER : String := "\n\n[...内容已截断...]\n"

/-- `"[...前面内容已省略...]\n\n"`, prepended after a back cut (line 572). -/
def BACK_OMIT_MARKER : String := "[...前面内容已省略...]\n\n"

/-- Replace the text of the first `text` block (the source's
`for item in ...: if item.get("type") == "text": item["text"] = ...; break`,
lines 544-547 and 575-578). -/
def replaceFirstText : List Block → String → List Block
  | [], _ => []
  | .text _ :: rest, s => .text s :: rest
  | b :: rest, s => b :: replaceFirstText rest s

/-- The in-place content update a cut performs on the boundary record
(lines 542-549 / 573-580): if the record has a `message` with `content`,
replace the first text block (list content) or the whole string (string
content) with `s`; otherwise leave the record unchanged. -/
def truncEdit (m : Message) (s : String) : Message :=
  match m.message with
  | some b =>
    match b.content with
    | some (.blocks l) => ⟨some ⟨some (.blocks (replaceFirstText l s))⟩⟩
    | some (.str _) => ⟨some ⟨some (.str s)⟩⟩
    | none => m
  | none => m

/-- State of one selection pass over the record store. -/
structure PassState where
  store : List Message
  selWhole : List ℕ
  boundary : Option ℕ
  used : ℕ
  deriving DecidableEq

/-- Front pass (lines 530-552), over `(index, content, tokens)` tuples. -/
def frontLoop (F : ℕ) : List (ℕ × List Char × ℕ) → PassState → PassState
  | [], st => st
  | (i, content, tokens) :: rest, st =>
    if tokens = 0 then frontLoop F rest st
    else if st.used + tokens ≤ F then
      frontLoop F rest { st with selWhole := st.selWhole ++ [i], used := st.used + tokens }
    else
      let remaining := F - st.used
      if remaining > 100 then
        let truncated_content := _binary_search_truncate content remaining
        { st with
            store := st.store.set i
              (truncEdit (st.store.getD i default)
                (String.mk truncated_content ++ FRONT_TRUNC_MARKER)),
            boundary := some i,
            used := st.used + count_tokens_chars truncated_content }
      else st

/-- Back pass (lines 554-584): reversed order, skipping indices kept whole
by the front pass; the binary search runs on the reversed content and the
kept suffix is prefixed with the omission marker; the tokens added for the
boundary include the marker (unlike the front pass). -/
def backLoop (B : ℕ) (frontWhole : List ℕ) :
    List (ℕ × List Char × ℕ) → PassState → PassState
  | [], st => st
  | (i, content, tokens) :: rest, st =>
    if tokens = 0 then backLoop B frontWhole rest st
    else if i ∈ frontWhole then backLoop B frontWhole rest st
    else if st.used + tokens ≤ B then
      backLoop B frontWhole rest { st with selWhole := st.selWhole ++ [i], used := st.used + tokens }
    else
      let remaining := B - st.used
      if remaining > 100 then
        let truncated_rev := _binary_search_truncate content.reverse remaining
        let truncated_content := BACK_OMIT_MARKER ++ String.mk truncated_rev.reverse
        { st with
            store := st.store.set i (truncEdit (st.store.getD i default) truncated_content),
            boundary := some i,
            used := st.used + count_tokens truncated_content }
      else st

/-- `enumerate(message_tokens)`: the `(index, content, tokens)` tuples both
passes iterate over (computed once, from the records as given — the loop
tuples are not refreshed by later in-place truncation). -/
def message_tokens_enum (msgs : List Message) : List (ℕ × List Char × ℕ) :=
  (List.range msgs.length).map
    (fun i => (i, msgChars (msgs.getD i default), message_cost (msgs.getD i default)))

/-- The front pass of `extract_key_messages(messages, F, ...)`. -/
def frontRun (msgs : List Message) (F : ℕ) : PassState :=
  frontLoop F (message_tokens_enum msgs) ⟨msgs, [], none, 0⟩

/-- The back pass, started on the store the front pass left behind. -/
def backRun (msgs : List Message) (F B : ℕ) : PassState :=
  backLoop B (frontRun msgs F).selWhole (message_tokens_enum msgs).reverse
    ⟨(frontRun msgs F).store, [], none, 0⟩

/-- The statistics dict of `extract_key_messages`. -/
structure Stats where
  total_messages : ℕ
  extracted_messages : ℕ
  total_tokens : ℕ
  extracted_tokens : ℕ
  compression_ratio : ℚ
  deriving DecidableEq

/-- `extract_key_messages(messages, front_tokens, back_tokens)`
(`src/ccc/extractor.py` lines 490-599), with the final store — the value of
the caller's record list after the call, observable because cuts mutate
records in place — returned as the third component.
`FRONT_TOKENS = max(0, int(front_tokens))` is `Int.toNat`; on an empty
input the source returns `([], {})`, modelled as zeroed stats. -/
def extract_key_messages_full (messages : List Message) (front_tokens back_tokens : ℤ) :
    List Message × Stats × List Message :=
  if messages = [] then ([], ⟨0, 0, 0, 0, 0⟩, [])
  else
    let F := front_tokens.toNat
    let B := back_tokens.toNat
    let mts := tokenize messages
    let total := (mts.map (fun p => p.2)).sum
    let fr := frontRun messages F
    let bk := backRun messages F B
    let store := bk.store
    let sel := (fr.selWhole ++ fr.boundary.toList) ++ (bk.selWhole ++ bk.boundary.toList)
    let extracted := (List.range messages.length).filterMap (fun i =>
      if sel.any (fun j => decide (store.getD i default = store.getD j default))
      then some (store.getD i default) else none)
    let actual := (extracted.map message_cost).sum
    let ratio : ℚ := if total > 0 then 1 - (actual : ℚ) / (total : ℚ) else 0
    (extracted, ⟨messages.length, extracted.length, total, actual, ratio⟩, store)

/-- The `(extracted_messages, stats)` pair the source returns. -/
def extract_key_messages (messages : List Message) (front_tokens back_tokens : ℤ) :
    List Message × Stats :=
  ((extract_key_messages_full messages front_tokens back_tokens).1,
    (extract_key_messages_full messages front_tokens back_tokens).2.1)

/-- A record whose body content is a plain string. -/
def strMsg (s : String) : Message := ⟨some ⟨some (.str s)⟩⟩

example :
    (extract_key_messages [strMsg "aaaaaaaaaaaaaaaaaaaaaaaaaaaaaaaaaaa",
        strMsg "bbbbbbbbbbbbbbbbbbbbbbbbbbbbbbbbbbb"] 1000 0).1
      = [strMsg "aaaaaaaaaaaaaaaaaaaaaaaaaaaaaaaaaaa",
          strMsg "bbbbbbbbbbbbbbbbbbbbbbbbbbbbbbbbbbb"] := by decide
example :
    (extract_key_messages [strMsg "aaaaaaaaaaaaaaaaaaaaaaaaaaaaaaaaaaa",
        strMsg "bbbbbbbbbbbbbbbbbbbbbbbbbbbbbbbbbbb"] 1000 0).2.extracted_tokens = 20 := by decide

/-! ## Claim C9: a cut replaces only the first text block -/

/-- Test for a `text` block. -/
def isTextBlock : Block → Bool
  | .text _ => true
  | _ => false

/-- Index of the first `text` block, if any. -/
def firstTextIdx : List Block → Option ℕ
  | [] => none
  | b :: rest => if isTextBlock b then some 0 else (firstTextIdx rest).map (· + 1)

theorem replaceFirstText_of_no_text (l : List Block) (s : String)
    (h : firstTextIdx l = none) : replaceFirstText l s = l := by
  induction l with
  | nil => rfl
  | cons b rest ih =>
    cases b with
    | text t => simp [firstTextIdx, isTextBlock] at h
    | thinking th sig =>
      simp only [firstTextIdx, isTextBlock, Bool.false_eq_true, if_false,
        Option.map_eq_none'] at h
      simp [replaceFirstText, ih h]
    | tool_use name input =>
      simp only [firstTextIdx, isTextBlock, Bool.false_eq_true, if_false,
        Option.map_eq_none'] at h
      simp [replaceFirstText, ih h]
    | tool_result_str c =>
      simp only [firstTextIdx, isTextBlock, Bool.false_eq_true, if_false,
        Option.map_eq_none'] at h
      simp [replaceFirstText, ih h]
    | tool_result_list n =>
      simp only [firstTextIdx, isTextBlock, Bool.false_eq_true, if_false,
        Option.map_eq_none'] at h
      simp [replaceFirstText, ih h]
    | str_item s' =>
      simp only [firstTextIdx, isTextBlock, Bool.false_eq_true, if_false,
        Option.map_eq_none'] at h
      simp [replaceFirstText, ih h]

theorem replaceFirstText_frame (l : List Block) (s : String) (j : ℕ)
    (h : firstTextIdx l ≠ some j) : (replaceFirstText l s)[j]? = l[j]? := by
  induction l generalizing j with
  | nil => rfl
  | cons b rest ih =>
    cases b with
    | text t =>
      have h0 : j ≠ 0 := by
        intro hj
        exact h (by simp [firstTextIdx, isTextBlock, hj])
      obtain ⟨j', rfl⟩ := Nat.exists_eq_succ_of_ne_zero h0
      simp [replaceFirstText]
    | thinking th sig =>
      match j with
      | 0 => simp [replaceFirstText]
      | j' + 1 =>
        have h' : firstTextIdx rest ≠ some j' := by
          intro hx
          exact h (by simp [firstTextIdx, isTextBlock, hx])
        simpa [replaceFirstText] using ih j' h'
    | tool_use name input =>
      match j with
      | 0 => simp [replaceFirstText]
      | j' + 1 =>
        have h' : firstTextIdx rest ≠ some j' := by
          intro hx
          exact h (by simp [firstTextIdx, isTextBlock, hx])
        simpa [replaceFirstText] using ih j' h'
    | tool_result_str c =>
      match j with
      | 0 => simp [replaceFirstText]
      | j' + 1 =>
        have h' : firstTextIdx rest ≠ some j' := by
          intro hx
          exact h (by simp [firstTextIdx, isTextBlock, hx])
        simpa [replaceFirstText] using ih j' h'
    | tool_result_list n =>
      match j with
      | 0 => simp [replaceFirstText]
      | j' + 1 =>
        have h' : firstTextIdx rest ≠ some j' := by
          intro hx
          exact h (by simp [firstTextIdx, isTextBlock, hx])
        simpa [replaceFirstText] using ih j' h'
    | str_item s' =>
      match j with
      | 0 => simp [replaceFirstText]
      | j' + 1 =>
        have h' : firstTextIdx rest ≠ some j' := by
          intro hx
          exact h (by simp [firstTextIdx, isTextBlock, hx])
        simpa [replaceFirstText] using ih j' h'

theorem replaceFirstText_at_first (l : List Block) (s : String) (k : ℕ)
    (h : firstTextIdx l = some k) : (replaceFirstText l s)[k]? = some (.text s) := by
  induction l generalizing k with
  | nil => simp [firstTextIdx] at h
  | cons b rest ih =>
    cases b with
    | text t =>
      have hk : k = 0 := by
        simp [firstTextIdx, isTextBlock] at h
        omega
      subst hk
      simp [replaceFirstText]
    | thinking th sig =>
      simp only [firstTextIdx, isTextBlock, Bool.false_eq_true, if_false,
        Option.map_eq_some'] at h
      obtain ⟨k', hk', rfl⟩ := h
      simpa [replaceFirstText] using ih k' hk'
    | tool_use name input =>
      simp only [firstTextIdx, isTextBlock, Bool.false_eq_true, if_false,
        Option.map_eq_some'] at h
      obtain ⟨k', hk', rfl⟩ := h
      simpa [replaceFirstText] using ih k' hk'
    | tool_result_str c =>
      simp only [firstTextIdx, isTextBlock, Bool.false_eq_true, if_false,
        Option.map_eq_some'] at h
      obtain ⟨k', hk', rfl⟩ := h
      simpa [replaceFirstText] using ih k' hk'
    | tool_result_list n =>
      simp only [firstTextIdx, isTextBlock, Bool.false_eq_true, if_false,
        Option.map_eq_some'] at h
      obtain ⟨k', hk', rfl⟩ := h
      simpa [replaceFirstText] using ih k' hk'
    | str_item s' =>
      simp only [firstTextIdx, isTextBlock, Bool.false_eq_true, if_false,
        Option.map_eq_some'] at h
      obtain ⟨k', hk', rfl⟩ := h
      simpa [replaceFirstText] using ih k' hk'

/-- **Claim C9, confirmed.**  When a cut record's nested content is a block
list, the cut (`truncEdit`, the content update both passes apply to the
boundary record) replaces only the text of the first `text` block; every
block at any other position — later text blocks, thinking, tool_use,
tool_result — is kept unchanged (and a block list without any text block is
kept entirely unchanged), so the full content of those blocks is what
`extracted_tokens` re-counts after the merge. -/
theorem C9_cut_replaces_only_first_text_block (m : Message) (l : List Block) (s : String)
    (hm : m.message = some ⟨some (.blocks l)⟩) :
    (truncEdit m s).message = some ⟨some (.blocks (replaceFirstText l s))⟩ ∧
    (∀ j : ℕ, firstTextIdx l ≠ some j → (replaceFirstText l s)[j]? = l[j]?) ∧
    (∀ k : ℕ, firstTextIdx l = some k → (replaceFirstText l s)[k]? = some (.text s)) ∧
    (firstTextIdx l = none → replaceFirstText l s = l) := by
  refine ⟨?_, fun j hj => replaceFirstText_frame l s j hj,
    fun k hk => replaceFirstText_at_first l s k hk,
    fun hn => replaceFirstText_of_no_text l s hn⟩
  obtain ⟨mm⟩ := m
  cases hm
  rfl

/-- Blocks used by the witness below: a thinking block, two text blocks and
a tool result. -/
def c9Blocks : List Block :=
  [.thinking "deep thought" "", .text "hello", .text "world", .tool_result_str "ok"]

/-- Witness for `C9_cut_replaces_only_first_text_block`: on `c9Blocks` the
cut rewrites position 1 (the first text block) and keeps positions 0, 2, 3
unchanged. -/
theorem C9_cut_replaces_only_first_text_block_witness :
    (truncEdit ⟨some ⟨some (.blocks c9Blocks)⟩⟩ "CUT").message
        = some ⟨some (.blocks (replaceFirstText c9Blocks "CUT"))⟩ ∧
      (replaceFirstText c9Blocks "CUT")[0]? = c9Blocks[0]? ∧
      (replaceFirstText c9Blocks "CUT")[2]? = c9Blocks[2]? ∧
      (replaceFirstText c9Blocks "CUT")[3]? = c9Blocks[3]? ∧
      (replaceFirstText c9Blocks "CUT")[1]? = some (.text "CUT") := by
  obtain ⟨h1, h2, h3, _⟩ :=
    C9_cut_replaces_only_first_text_block ⟨some ⟨some (.blocks c9Blocks)⟩⟩ c9Blocks "CUT" rfl
  exact ⟨h1, h2 0 (by decide), h2 2 (by decide), h2 3 (by decide), h3 1 (by decide)⟩

/-! ## Claim C8: the spec's worked example, versus the code -/

/-- The `compression_ratio` the engine reports, written through the other
two statistics fields (for non-empty input). -/
theorem extract_stats_ratio (msgs : List Message) (f b : ℤ) (h : ¬ msgs = []) :
    (extract_key_messages msgs f b).2.compression_ratio
      = (if 0 < (extract_key_messages msgs f b).2.total_tokens
          then 1 - ((extract_key_messages msgs f b).2.extracted_tokens : ℚ)
              / ((extract_key_messages msgs f b).2.total_tokens : ℚ)
          else 0) := by
  unfold extract_key_messages extract_key_messages_full
  rw [if_neg h]

/-- Ten records of ten tokens each (35 ASCII characters: `35/3.5 = 10`). -/
def ex10 : List Message :=
  [ strMsg "rec00 xxxxxxxxxxxxxxxxxxxxxxxxxxxxx",
    strMsg "rec01 xxxxxxxxxxxxxxxxxxxxxxxxxxxxx",
    strMsg "rec02 xxxxxxxxxxxxxxxxxxxxxxxxxxxxx",
    strMsg "rec03 xxxxxxxxxxxxxxxxxxxxxxxxxxxxx",
    strMsg "rec04 xxxxxxxxxxxxxxxxxxxxxxxxxxxxx",
    strMsg "rec05 xxxxxxxxxxxxxxxxxxxxxxxxxxxxx",
    strMsg "rec06 xxxxxxxxxxxxxxxxxxxxxxxxxxxxx",
    strMsg "rec07 xxxxxxxxxxxxxxxxxxxxxxxxxxxxx",
    strMsg "rec08 xxxxxxxxxxxxxxxxxxxxxxxxxxxxx",
    strMsg "rec09 xxxxxxxxxxxxxxxxxxxxxxxxxxxxx" ]

/-- **Claim C8, counterexample.**  On ten 10-token records with
`front_tokens = 25`, `back_tokens = 75`, the engine does *not* behave as the
claim describes: the front pass keeps records 1-2 whole but performs *no*
cut of record 3 (the 5 remaining tokens are below the 100-token headroom
threshold of line 539), the back pass keeps records 4-10 (its budget of 75
covers seven 10-token records, not just records 8-10), and the result is 9
of the 10 original records, 90 tokens, ratio 0.1 — not ≈55 tokens and
ratio ≈0.45. -/
theorem C8_counterexample :
    (extract_key_messages ex10 25 75).1
        = [strMsg "rec00 xxxxxxxxxxxxxxxxxxxxxxxxxxxxx",
           strMsg "rec01 xxxxxxxxxxxxxxxxxxxxxxxxxxxxx",
           strMsg "rec03 xxxxxxxxxxxxxxxxxxxxxxxxxxxxx",
           strMsg "rec04 xxxxxxxxxxxxxxxxxxxxxxxxxxxxx",
           strMsg "rec05 xxxxxxxxxxxxxxxxxxxxxxxxxxxxx",
           strMsg "rec06 xxxxxxxxxxxxxxxxxxxxxxxxxxxxx",
           strMsg "rec07 xxxxxxxxxxxxxxxxxxxxxxxxxxxxx",
           strMsg "rec08 xxxxxxxxxxxxxxxxxxxxxxxxxxxxx",
           strMsg "rec09 xxxxxxxxxxxxxxxxxxxxxxxxxxxxx"] ∧
      (extract_key_messages ex10 25 75).2.extracted_tokens = 90 ∧
      (extract_key_messages ex10 25 75).2.extracted_tokens ≠ 55 := by
  refine ⟨by decide, by decide, by decide⟩

/-- **Claim C8, amended.**  What the code actually does on that input: the
front pass keeps records 1-2 whole (20 tokens) and cuts nothing (remaining
headroom 5 ≤ 100); the back pass keeps records 10,9,...,4 whole (70
tokens) and cuts nothing; the merge emits 9 records totalling 90 tokens,
compression ratio exactly 1/10. -/
theorem C8_amended :
    (frontRun ex10 25).selWhole = [0, 1] ∧
      (frontRun ex10 25).boundary = none ∧
      (frontRun ex10 25).used = 20 ∧
      (backRun ex10 25 75).selWhole = [9, 8, 7, 6, 5, 4, 3] ∧
      (backRun ex10 25 75).boundary = none ∧
      (backRun ex10 25 75).used = 70 ∧
      (extract_key_messages ex10 25 75).1.length = 9 ∧
      (extract_key_messages ex10 25 75).2.extracted_tokens = 90 ∧
      (extract_key_messages ex10 25 75).2.total_tokens = 100 ∧
      (extract_key_messages ex10 25 75).2.compression_ratio = 1/10 := by
  refine ⟨by decide, by decide, by decide, by decide, by decide, by decide, by decide,
    by decide, by decide, ?_⟩
  rw [extract_stats_ratio ex10 25 75 (by decide)]
  rw [show (extract_key_messages ex10 25 75).2.extracted_tokens = 90 by decide]
  rw [show (extract_key_messages ex10 25 75).2.total_tokens = 100 by decide]
  norm_num

/-! ## Claim C5: the engine mutates the original records (shallow copy) -/

/-- Two records: 10 tokens, then 102 tokens (360 ASCII characters).  With
`front_tokens = 111` the second record is cut (headroom `101 > 100`). -/
def exC5 : List Message :=
  [ strMsg "rec00 xxxxxxxxxxxxxxxxxxxxxxxxxxxxx",
    strMsg (String.mk (List.replicate 360 'b')) ]

set_option maxRecDepth 40000 in
/-- **Claim C5, failing run.**  `truncated_msg = msg.copy()` (line 541) is a
*shallow* dict copy: the copy shares the nested `message` dict with the
caller's record, so writing the truncated content (lines 546/549) mutates
the original record in place.  After `extract_key_messages(exC5, 111, 0)`
the caller's second record no longer holds its original 360-character
content but the 354-character binary-search cut plus the truncation marker.
The spec ("the engine never mutates the original record list — it works on
owned copies") and the source's own practice elsewhere
(`_clean_tool_call_pollution` uses `copy.deepcopy`) make the claim the
intent and the shallow copy the slip. -/
theorem C5_shallow_copy_mutates_input :
    (extract_key_messages_full exC5 111 0).2.2 ≠ exC5 ∧
      (extract_key_messages_full exC5 111 0).2.2.getD 1 default ≠ exC5.getD 1 default ∧
      ((extract_key_messages_full exC5 111 0).2.2.getD 1 default).message
        = some ⟨some (.str (String.mk (_binary_search_truncate (List.replicate 360 'b') 101)
            ++ FRONT_TRUNC_MARKER))⟩ := by
  refine ⟨by decide, by decide, by decide⟩

/-! ## Claim C1: the budget invariant -/

/-- Three *identical* 60-token records (210 ASCII characters each). -/
def exC1 : List Message :=
  [ strMsg (String.mk (List.replicate 210 'a')),
    strMsg (String.mk (List.replicate 210 'a')),
    strMsg (String.mk (List.replicate 210 'a')) ]

set_option maxRecDepth 8000 in
/-- **Claim C1, counterexample.**  With three value-equal 60-token records,
`front_tokens = 60` and `back_tokens = 0`, the front pass selects only the
first record (60 tokens) and the back pass selects nothing, yet the merge
test `msg in front_messages` is *value* equality, so both duplicates of the
selected record are re-included: the recomputed `extracted_tokens` is 180,
far above `F + B + ε = 60 + 0 + ε` for any ε below 50 per side. -/
theorem C1_counterexample :
    (extract_key_messages exC1 60 0).2.extracted_tokens = 180 ∧
      ¬ ((extract_key_messages exC1 60 0).2.extracted_tokens ≤ 60 + 0 + 100) :=
  ⟨by decide, by decide⟩

/-- Total token cost of a record list (`stats["total_tokens"]`). -/
def total_cost (msgs : List Message) : ℕ := (msgs.map message_cost).sum

theorem map_getD_range {α β : Type} (l : List α) (f : α → β) (d : α) :
    (List.range l.length).map (fun i => f (l.getD i d)) = l.map f := by
  induction l with
  | nil => rfl
  | cons a t ih =>
    rw [List.length_cons, List.range_succ_eq_map, List.map_cons, List.map_map, List.map_cons]
    refine congrArg _ ?_
    rw [show ((fun i => f ((a :: t).getD i d)) ∘ Nat.succ) = (fun i => f (t.getD i d)) from ?_, ih]
    funext i
    simp [Function.comp, List.getD_cons_succ]

theorem total_cost_eq_tokenize (msgs : List Message) :
    ((tokenize msgs).map (fun p => p.2)).sum = total_cost msgs := by
  simp [tokenize, total_cost, List.map_map, Function.comp_def]

theorem mte_map_fst (msgs : List Message) :
    (message_tokens_enum msgs).map (fun x => x.1) = List.range msgs.length := by
  simp [message_tokens_enum, List.map_map, Function.comp_def]

theorem mte_mem_spec (msgs : List Message) (x : ℕ × List Char × ℕ)
    (hx : x ∈ message_tokens_enum msgs) :
    x.1 < msgs.length ∧ x.2.2 = message_cost (msgs.getD x.1 default) := by
  simp only [message_tokens_enum, List.mem_map, List.mem_range] at hx
  obtain ⟨i, hi, rfl⟩ := hx
  exact ⟨hi, rfl⟩

theorem count_tokens_chars_pos (l : List Char) (h : 10 ≤ l.length) :
    1 ≤ count_tokens_chars l := by
  unfold count_tokens_chars
  dsimp only
  refine le_trans ?_ (Nat.div_le_div_right (le_max_left (7000 * l.length) _))
  rw [Nat.le_div_iff_mul_le (by norm_num : 0 < 70000)]
  omega

theorem joinTexts_length_ge (parts : List (List Char)) (x : List Char) (hx : x ∈ parts) :
    x.length ≤ (joinTexts parts).length := by
  induction parts with
  | nil => cases hx
  | cons y rest ih =>
    cases rest with
    | nil =>
      rcases List.mem_singleton.mp hx with rfl
      exact le_refl _
    | cons z rest' =>
      rw [show joinTexts (y :: z :: rest') = y ++ '\n' :: joinTexts (z :: rest') from rfl]
      rcases List.mem_cons.mp hx with rfl | hx'
      · simp
      · have := ih hx'
        simp only [List.length_append, List.length_cons]
        omega

theorem string_ne_empty_of_length {s : String} (h : 10 ≤ s.length) : s.data ≠ [] := by
  intro h0
  have : s.length = 0 := by
    simp [String.length, h0]
  omega

/-- A cut record still costs at least one token: the written text `s` (cut
text plus marker, always ≥ 10 characters) ends up among the record's
fragments — or the record is left unchanged. -/
theorem message_cost_truncEdit_ne_zero (m : Message) (s : String)
    (hm : message_cost m ≠ 0) (hs : 10 ≤ s.length) :
    message_cost (truncEdit m s) ≠ 0 := by
  have hsd : 10 ≤ s.data.length := hs
  have hsne : s ≠ "" := by
    intro h
    subst h
    simp [String.length] at hs
  obtain ⟨mm⟩ := m
  cases mm with
  | none => simpa [truncEdit] using hm
  | some b =>
    obtain ⟨c⟩ := b
    cases c with
    | none => simpa [truncEdit] using hm
    | some mc =>
      cases mc with
      | str s0 =>
        show message_cost ⟨some ⟨some (.str s)⟩⟩ ≠ 0
        have hchars : msgChars ⟨some ⟨some (.str s)⟩⟩ = s.data := by
          simp [msgChars, msgTexts, contentTexts, hsne, joinTexts]
        unfold message_cost
        rw [hchars, if_neg (string_ne_empty_of_length hs)]
        have := count_tokens_chars_pos s.data hsd
        omega
      | blocks l =>
        cases hft : firstTextIdx l with
        | none =>
          have hrw : replaceFirstText l s = l := replaceFirstText_of_no_text l s hft
          show message_cost ⟨some ⟨some (.blocks (replaceFirstText l s))⟩⟩ ≠ 0
          rw [hrw]
          exact hm
        | some k =>
          show message_cost ⟨some ⟨some (.blocks (replaceFirstText l s))⟩⟩ ≠ 0
          have hget := replaceFirstText_at_first l s k hft
          have hmem : Block.text s ∈ replaceFirstText l s := by
            have := List.getElem?_eq_some_iff.mp hget
            obtain ⟨hk, hEq⟩ := this
            exact hEq ▸ List.getElem_mem hk
          have hfrag : s ∈ msgTexts ⟨some ⟨some (.blocks (replaceFirstText l s))⟩⟩ := by
            simp only [msgTexts, contentTexts, List.mem_flatMap]
            exact ⟨Block.text s, hmem, by simp [blockTexts, hsne]⟩
          have hlen : 10 ≤ (msgChars ⟨some ⟨some (.blocks (replaceFirstText l s))⟩⟩).length := by
            have hj := joinTexts_length_ge
              ((msgTexts ⟨some ⟨some (.blocks (replaceFirstText l s))⟩⟩).map String.data)
              s.data (List.mem_map_of_mem _ hfrag)
            unfold msgChars
            omega
          have hne : msgChars ⟨some ⟨some (.blocks (replaceFirstText l s))⟩⟩ ≠ [] := by
            intro h0
            rw [h0] at hlen
            simp at hlen
          unfold message_cost
          rw [if_neg hne]
          have := count_tokens_chars_pos _ hlen
          omega

theorem frontLoop_store_of_no_cut (F : ℕ) (l : List (ℕ × List Char × ℕ)) :
    ∀ st : PassState, (frontLoop F l st).boundary = none →
      (frontLoop F l st).store = st.store := by
  induction l with
  | nil =>
    intro st _
    rfl
  | cons x rest ih =>
    intro st h
    obtain ⟨i, content, tokens⟩ := x
    unfold frontLoop at h ⊢
    dsimp only at h ⊢
    split_ifs at h ⊢ with h1 h2 h3
    · exact ih _ h
    · exact ih _ h
    · rfl

theorem backLoop_store_of_no_cut (B : ℕ) (fw : List ℕ) (l : List (ℕ × List Char × ℕ)) :
    ∀ st : PassState, (backLoop B fw l st).boundary = none →
      (backLoop B fw l st).store = st.store := by
  induction l with
  | nil =>
    intro st _
    rfl
  | cons x rest ih =>
    intro st h
    obtain ⟨i, content, tokens⟩ := x
    unfold backLoop at h ⊢
    dsimp only at h ⊢
    split_ifs at h ⊢ with h1 h2 h3 h4
    · exact ih _ h
    · exact ih _ h
    · exact ih _ h
    · rfl

theorem frontLoop_used_le (F : ℕ) (l : List (ℕ × List Char × ℕ)) :
    ∀ st : PassState, st.used ≤ F → (frontLoop F l st).used ≤ F := by
  induction l with
  | nil =>
    intro st h
    exact h
  | cons x rest ih =>
    intro st h
    obtain ⟨i, content, tokens⟩ := x
    unfold frontLoop
    dsimp only
    split_ifs with h1 h2 h3
    · exact ih _ h
    · exact ih _ h2
    · have := (truncate_le_target content (F - st.used)).1
      dsimp only
      omega
    · exact h

theorem backLoop_used_le_of_no_cut (B : ℕ) (fw : List ℕ) (l : List (ℕ × List Char × ℕ)) :
    ∀ st : PassState, (backLoop B fw l st).boundary = none → st.used ≤ B →
      (backLoop B fw l st).used ≤ B := by
  induction l with
  | nil =>
    intro st _ h
    exact h
  | cons x rest ih =>
    intro st hb h
    obtain ⟨i, content, tokens⟩ := x
    unfold backLoop at hb ⊢
    dsimp only at hb ⊢
    split_ifs at hb ⊢ with h1 h2 h3 h4
    · exact ih _ hb h
    · exact ih _ hb h
    · exact ih _ hb h3
    · exact h

theorem frontLoop_no_cut_spec (F : ℕ) (tok : ℕ → ℕ) (l : List (ℕ × List Char × ℕ)) :
    ∀ st : PassState, (∀ x ∈ l, x.2.2 = tok x.1) → (frontLoop F l st).boundary = none →
      ∃ ks : List ℕ,
        (frontLoop F l st).selWhole = st.selWhole ++ ks ∧
        ks.Sublist (l.map (fun x => x.1)) ∧
        (frontLoop F l st).used = st.used + (ks.map tok).sum := by
  induction l with
  | nil =>
    intro st _ _
    exact ⟨[], by simp [frontLoop], by simp, by simp [frontLoop]⟩
  | cons x rest ih =>
    intro st hl h
    obtain ⟨i, content, tokens⟩ := x
    unfold frontLoop at h ⊢
    dsimp only at h ⊢
    split_ifs at h ⊢ with h1 h2 h3
    · obtain ⟨ks, hsel, hsub, hused⟩ := ih _ (fun y hy => hl y (List.mem_cons_of_mem _ hy)) h
      exact ⟨ks, hsel, hsub.cons _, hused⟩
    · obtain ⟨ks, hsel, hsub, hused⟩ := ih _ (fun y hy => hl y (List.mem_cons_of_mem _ hy)) h
      refine ⟨i :: ks, ?_, ?_, ?_⟩
      · rw [hsel]
        simp
      · simpa using hsub.cons₂ i
      · rw [hused]
        have ht : tokens = tok i := hl (i, content, tokens) (List.mem_cons_self _ _)
        dsimp only
        rw [List.map_cons, List.sum_cons]
        omega
    · exact ⟨[], by simp, by simp, by simp⟩

theorem backLoop_no_cut_spec (B : ℕ) (fw : List ℕ) (tok : ℕ → ℕ)
    (l : List (ℕ × List Char × ℕ)) :
    ∀ st : PassState, (∀ x ∈ l, x.2.2 = tok x.1) → (backLoop B fw l st).boundary = none →
      ∃ ks : List ℕ,
        (backLoop B fw l st).selWhole = st.selWhole ++ ks ∧
        ks.Sublist (l.map (fun x => x.1)) ∧
        (∀ j ∈ ks, j ∉ fw) ∧
        (backLoop B fw l st).used = st.used + (ks.map tok).sum := by
  induction l with
  | nil =>
    intro st _ _
    exact ⟨[], by simp [backLoop], by simp, by simp, by simp [backLoop]⟩
  | cons x rest ih =>
    intro st hl h
    obtain ⟨i, content, tokens⟩ := x
    unfold backLoop at h ⊢
    dsimp only at h ⊢
    split_ifs at h ⊢ with h1 h2 h3 h4
    · obtain ⟨ks, hsel, hsub, hfw, hused⟩ := ih _ (fun y hy => hl y (List.mem_cons_of_mem _ hy)) h
      exact ⟨ks, hsel, hsub.cons _, hfw, hused⟩
    · obtain ⟨ks, hsel, hsub, hfw, hused⟩ := ih _ (fun y hy => hl y (List.mem_cons_of_mem _ hy)) h
      exact ⟨ks, hsel, hsub.cons _, hfw, hused⟩
    · obtain ⟨ks, hsel, hsub, hfw, hused⟩ := ih _ (fun y hy => hl y (List.mem_cons_of_mem _ hy)) h
      refine ⟨i :: ks, ?_, ?_, ?_, ?_⟩
      · rw [hsel]
        simp
      · simpa using hsub.cons₂ i
      · intro j hj
        rcases List.mem_cons.mp hj with rfl | hj'
        · exact h2
        · exact hfw j hj'
      · rw [hused]
        have ht : tokens = tok i := hl (i, content, tokens) (List.mem_cons_self _ _)
        dsimp only
        rw [List.map_cons, List.sum_cons]
        omega
    · exact ⟨[], by simp, by simp, by simp, by simp⟩

theorem filterMap_if_map_sum (p : ℕ → Prop) [DecidablePred p] (g : ℕ → Message)
    (ns : List ℕ) :
    ((ns.filterMap (fun i => if p i then some (g i) else none)).map message_cost).sum
      = ((ns.filter (fun i => decide (p i))).map (fun i => message_cost (g i))).sum := by
  induction ns with
  | nil => rfl
  | cons a t ih =>
    by_cases hpa : p a
    · simp [List.filterMap_cons, List.filter_cons, hpa, ih]
    · simp [List.filterMap_cons, List.filter_cons, hpa, ih]

/-- The output list, recomputed token total and total token count of
`extract_key_messages` on a non-empty input, written through the two pass
runs. -/
theorem extract_key_messages_spec (msgs : List Message) (f b : ℤ) (hm : ¬ msgs = []) :
    (extract_key_messages msgs f b).1
      = (List.range msgs.length).filterMap (fun i =>
          if (((frontRun msgs f.toNat).selWhole ++ (frontRun msgs f.toNat).boundary.toList)
                ++ ((backRun msgs f.toNat b.toNat).selWhole
                  ++ (backRun msgs f.toNat b.toNat).boundary.toList)).any
              (fun j => decide ((backRun msgs f.toNat b.toNat).store.getD i default
                  = (backRun msgs f.toNat b.toNat).store.getD j default))
          then some ((backRun msgs f.toNat b.toNat).store.getD i default) else none) ∧
    (extract_key_messages msgs f b).2.extracted_tokens
      = (((extract_key_messages msgs f b).1).map message_cost).sum ∧
    (extract_key_messages msgs f b).2.total_tokens = total_cost msgs := by
  unfold extract_key_messages extract_key_messages_full
  rw [if_neg hm]
  exact ⟨rfl, rfl, total_cost_eq_tokenize msgs⟩

/-- **Claim C1, amended.**  If the records are pairwise distinct (as
values) and neither pass cuts a boundary record, the recomputed
`extracted_tokens` of the output is at most `F + B` (with no ε at all).
The unrestricted claim fails: with value-equal duplicate records the merge
re-includes every duplicate of a selected record (`C1_counterexample`), and
a cut's marker text can push the recount past any fixed ε. -/
theorem C1_budget_of_nodup_no_cut (msgs : List Message) (f b : ℤ)
    (hnd : msgs.Nodup)
    (hf : (frontRun msgs f.toNat).boundary = none)
    (hb : (backRun msgs f.toNat b.toNat).boundary = none) :
    (extract_key_messages msgs f b).2.extracted_tokens ≤ f.toNat + b.toNat := by
  by_cases hm : msgs = []
  · subst hm
    rw [show (extract_key_messages [] f b).2.extracted_tokens = 0 from rfl]
    exact Nat.zero_le _
  obtain ⟨hext, hact, -⟩ := extract_key_messages_spec msgs f b hm
  have hcoh : ∀ x ∈ message_tokens_enum msgs,
      x.2.2 = (fun i => message_cost (msgs.getD i default)) x.1 :=
    fun x hx => (mte_mem_spec msgs x hx).2
  have hcoh' : ∀ x ∈ (message_tokens_enum msgs).reverse,
      x.2.2 = (fun i => message_cost (msgs.getD i default)) x.1 :=
    fun x hx => hcoh x (List.mem_reverse.mp hx)
  -- the two stores are the unmodified record list
  have hst1 : (frontRun msgs f.toNat).store = msgs := by
    unfold frontRun at hf ⊢
    exact frontLoop_store_of_no_cut _ _ _ hf
  have hst2 : (backRun msgs f.toNat b.toNat).store = msgs := by
    have h1 : (backRun msgs f.toNat b.toNat).store = (frontRun msgs f.toNat).store := by
      unfold backRun at hb ⊢
      exact backLoop_store_of_no_cut _ _ _ _ hb
    rw [h1, hst1]
  -- pass selections
  obtain ⟨ksf, hksf_sel, hksf_sub, hksf_used⟩ := by
    unfold frontRun at hf
    exact frontLoop_no_cut_spec f.toNat (fun i => message_cost (msgs.getD i default))
      (message_tokens_enum msgs) ⟨msgs, [], none, 0⟩ hcoh hf
  obtain ⟨ksb, hksb_sel, hksb_sub, hksb_fw, hksb_used⟩ := by
    unfold backRun at hb
    exact backLoop_no_cut_spec b.toNat (frontRun msgs f.toNat).selWhole
      (fun i => message_cost (msgs.getD i default))
      (message_tokens_enum msgs).reverse
      ⟨(frontRun msgs f.toNat).store, [], none, 0⟩ hcoh' hb
  rw [mte_map_fst] at hksf_sub
  rw [List.map_reverse, mte_map_fst] at hksb_sub
  have hfr_sel : (frontRun msgs f.toNat).selWhole = ksf := by
    unfold frontRun
    simpa using hksf_sel
  have hbk_sel : (backRun msgs f.toNat b.toNat).selWhole = ksb := by
    unfold backRun
    simpa using hksb_sel
  -- index facts
  have hksf_lt : ∀ j ∈ ksf, j < msgs.length := by
    intro j hj
    exact List.mem_range.mp (hksf_sub.subset hj)
  have hksb_lt : ∀ j ∈ ksb, j < msgs.length := by
    intro j hj
    have := hksb_sub.subset hj
    exact List.mem_range.mp (List.mem_reverse.mp this)
  have hksf_nd : ksf.Nodup := hksf_sub.nodup (List.nodup_range _)
  have hksb_nd : ksb.Nodup := hksb_sub.nodup (List.nodup_reverse.mpr (List.nodup_range _))
  have hdisj : List.Disjoint ksf ksb := by
    intro a haf hab
    exact hksb_fw a hab (by rw [hfr_sel]; exact haf)
  have hS_nd : (ksf ++ ksb).Nodup := by
    rw [List.nodup_append]
    exact ⟨hksf_nd, hksb_nd, hdisj⟩
  have hS_lt : ∀ j ∈ ksf ++ ksb, j < msgs.length := by
    intro j hj
    rcases List.mem_append.mp hj with h | h
    · exact hksf_lt j h
    · exact hksb_lt j h
  -- value equality on distinct records forces index equality
  have hinj : ∀ i j : ℕ, i < msgs.length → j < msgs.length →
      msgs.getD i default = msgs.getD j default → i = j := by
    intro i j hi hj hEq
    rw [List.getD_eq_getElem _ _ hi, List.getD_eq_getElem _ _ hj] at hEq
    have := List.nodup_iff_injective_getElem.mp hnd
      (show (fun k : Fin msgs.length => msgs[k.1]) ⟨i, hi⟩
          = (fun k : Fin msgs.length => msgs[k.1]) ⟨j, hj⟩ from hEq)
    exact congrArg Fin.val this
  -- rewrite the output through the store = msgs facts
  rw [hst2, hf, hb, hfr_sel, hbk_sel] at hext
  simp only [Option.toList_none, List.append_nil] at hext
  -- membership form of the merge condition
  have hcond : ∀ i ∈ List.range msgs.length,
      (fun i => if (ksf ++ ksb).any
            (fun j => decide (msgs.getD i default = msgs.getD j default))
          then some (msgs.getD i default) else none) i
        = (fun i => if i ∈ ksf ++ ksb then some (msgs.getD i default) else none) i := by
    intro i hi
    dsimp only
    have hi' : i < msgs.length := List.mem_range.mp hi
    by_cases hmem : i ∈ ksf ++ ksb
    · have hT : (ksf ++ ksb).any
          (fun j => decide (msgs.getD i default = msgs.getD j default)) = true :=
        List.any_eq_true.mpr ⟨i, hmem, by simp⟩
      rw [if_pos hT, if_pos hmem]
    · have hFa : (ksf ++ ksb).any
          (fun j => decide (msgs.getD i default = msgs.getD j default)) = false := by
        rw [List.any_eq_false]
        intro j hj
        simp only [decide_eq_true_eq]
        intro hEq
        exact hmem (hinj i j hi' (hS_lt j hj) hEq ▸ hj)
      have hFn : ¬ ((ksf ++ ksb).any
          (fun j => decide (msgs.getD i default = msgs.getD j default)) = true) := by
        rw [hFa]
        exact Bool.false_ne_true
      rw [if_neg hFn, if_neg hmem]
  rw [List.filterMap_congr hcond] at hext
  -- compute the recomputed total
  rw [hact, hext, filterMap_if_map_sum (fun i => i ∈ ksf ++ ksb)
    (fun i => msgs.getD i default) (List.range msgs.length)]
  -- the filtered range is a permutation of the selected indices
  have hperm : ((List.range msgs.length).filter (fun i => decide (i ∈ ksf ++ ksb))).Perm
      (ksf ++ ksb) := by
    apply List.perm_of_nodup_nodup_toFinset_eq
    · exact (List.nodup_range _).filter _
    · exact hS_nd
    · ext a
      simp only [List.mem_toFinset, List.mem_filter, List.mem_range, decide_eq_true_eq]
      constructor
      · intro h
        exact h.2
      · intro h
        exact ⟨hS_lt a h, h⟩
  have hsum : (((List.range msgs.length).filter (fun i => decide (i ∈ ksf ++ ksb))).map
        (fun i => message_cost (msgs.getD i default))).sum
      = ((ksf ++ ksb).map (fun i => message_cost (msgs.getD i default))).sum :=
    (hperm.map _).sum_eq
  rw [hsum, List.map_append, List.sum_append]
  -- the two sums are the passes' accumulators, bounded by the budgets
  have hfused : (frontRun msgs f.toNat).used
      = (ksf.map (fun i => message_cost (msgs.getD i default))).sum := by
    unfold frontRun
    simpa using hksf_used
  have hbused : (backRun msgs f.toNat b.toNat).used
      = (ksb.map (fun i => message_cost (msgs.getD i default))).sum := by
    unfold backRun
    simpa using hksb_used
  have hF : (frontRun msgs f.toNat).used ≤ f.toNat := by
    unfold frontRun
    exact frontLoop_used_le _ _ _ (Nat.zero_le _)
  have hB : (backRun msgs f.toNat b.toNat).used ≤ b.toNat := by
    unfold backRun at hb ⊢
    exact backLoop_used_le_of_no_cut _ _ _ _ hb (Nat.zero_le _)
  rw [hfused] at hF
  rw [hbused] at hB
  omega

/-- Witness for `C1_budget_of_nodup_no_cut`: two distinct records, ample
front budget, zero back budget — no cut occurs and the recomputed total
stays within the budgets. -/
theorem C1_budget_of_nodup_no_cut_witness :
    ([strMsg "aaaaaaaaaaaaaaaaaaaaaaaaaaaaaaaaaaa",
        strMsg "bbbbbbbbbbbbbbbbbbbbbbbbbbbbbbbbbbb"] : List Message).Nodup ∧
      (frontRun [strMsg "aaaaaaaaaaaaaaaaaaaaaaaaaaaaaaaaaaa",
          strMsg "bbbbbbbbbbbbbbbbbbbbbbbbbbbbbbbbbbb"] (100 : ℤ).toNat).boundary = none ∧
      (backRun [strMsg "aaaaaaaaaaaaaaaaaaaaaaaaaaaaaaaaaaa",
          strMsg "bbbbbbbbbbbbbbbbbbbbbbbbbbbbbbbbbbb"] (100 : ℤ).toNat (0 : ℤ).toNat).boundary
        = none ∧
      (extract_key_messages [strMsg "aaaaaaaaaaaaaaaaaaaaaaaaaaaaaaaaaaa",
          strMsg "bbbbbbbbbbbbbbbbbbbbbbbbbbbbbbbbbbb"] 100 0).2.extracted_tokens
        ≤ (100 : ℤ).toNat + (0 : ℤ).toNat :=
  ⟨by decide, by decide, by decide,
    C1_budget_of_nodup_no_cut _ 100 0 (by decide) (by decide) (by decide)⟩

/-! ## Claim C7: a front budget covering the whole transcript -/

theorem frontLoop_all_fit (F : ℕ) (l : List (ℕ × List Char × ℕ)) :
    ∀ st : PassState, st.used + (l.map (fun x => x.2.2)).sum ≤ F →
      frontLoop F l st = { st with
        selWhole := st.selWhole ++ (l.filter (fun x => x.2.2 != 0)).map (fun x => x.1),
        used := st.used + (l.map (fun x => x.2.2)).sum } := by
  induction l with
  | nil =>
    intro st _
    show st = _
    simp
  | cons x rest ih =>
    intro st h
    obtain ⟨i, content, tokens⟩ := x
    rw [List.map_cons, List.sum_cons] at h ⊢
    dsimp only at h ⊢
    unfold frontLoop
    dsimp only
    split_ifs with h1 h2 h3
    · subst h1
      rw [ih st (by omega)]
      simp [List.filter_cons]
    · rw [ih _ (by dsimp only; omega)]
      have hne : ((i, content, tokens).2.2 != 0) = true := by
        simpa using h1
      rw [List.filter_cons, if_pos hne, List.map_cons]
      dsimp only
      simp [PassState.mk.injEq, List.append_assoc, Nat.add_assoc]
    · exact absurd (by omega : st.used + tokens ≤ F) h2
    · exact absurd (by omega : st.used + tokens ≤ F) h2

theorem backLoop_all_skipped (B : ℕ) (fw : List ℕ) (l : List (ℕ × List Char × ℕ)) :
    ∀ st : PassState, (∀ x ∈ l, x.2.2 = 0 ∨ x.1 ∈ fw) → backLoop B fw l st = st := by
  induction l with
  | nil =>
    intro st _
    rfl
  | cons x rest ih =>
    intro st h
    obtain ⟨i, content, tokens⟩ := x
    unfold backLoop
    dsimp only
    split_ifs with h1 h2 h3 h4
    · exact ih st (fun y hy => h y (List.mem_cons_of_mem _ hy))
    · exact ih st (fun y hy => h y (List.mem_cons_of_mem _ hy))
    · rcases h (i, content, tokens) (List.mem_cons_self _ _) with h0 | h0
      · exact absurd h0 h1
      · exact absurd h0 h2
    · rcases h (i, content, tokens) (List.mem_cons_self _ _) with h0 | h0
      · exact absurd h0 h1
      · exact absurd h0 h2
    · rfl

theorem filterMap_if_getD (l : List Message) (p : Message → Bool) :
    (List.range l.length).filterMap
      (fun i => if p (l.getD i default) then some (l.getD i default) else none) = l.filter p := by
  induction l with
  | nil => rfl
  | cons a t ih =>
    rw [List.length_cons, List.range_succ_eq_map, List.filterMap_cons, List.filterMap_map]
    have hcomp : ((fun i => if p ((a :: t).getD i default)
          then some ((a :: t).getD i default) else none) ∘ Nat.succ)
        = (fun i => if p (t.getD i default) then some (t.getD i default) else none) := by
      funext i
      simp [Function.comp, List.getD_cons_succ]
    rw [hcomp, ih]
    by_cases hpa : p a = true
    · simp [List.filter_cons, hpa]
    · simp only [Bool.not_eq_true] at hpa
      simp [List.filter_cons, hpa]

theorem sum_message_cost_filter (l : List Message) :
    ((l.filter (fun m => message_cost m != 0)).map message_cost).sum
      = (l.map message_cost).sum := by
  induction l with
  | nil => rfl
  | cons a t ih =>
    by_cases h : message_cost a = 0
    · simp [List.filter_cons, h, ih]
    · have hne : (message_cost a != 0) = true := by simpa using h
      simp [List.filter_cons, hne, ih]

theorem mte_tokens_sum (msgs : List Message) :
    ((message_tokens_enum msgs).map (fun x => x.2.2)).sum = total_cost msgs := by
  unfold message_tokens_enum total_cost
  rw [List.map_map]
  rw [show ((fun x : ℕ × List Char × ℕ => x.2.2)
        ∘ (fun i => (i, msgChars (msgs.getD i default), message_cost (msgs.getD i default))))
      = (fun i => message_cost (msgs.getD i default)) from funext fun i => rfl]
  exact congrArg _ (map_getD_range msgs message_cost default)

/-- **Claim C7, amended.**  When the front budget covers the whole
transcript (`total_cost msgs ≤ front budget`, total positive), the output
is the transcript *minus its zero-cost records* (records whose extracted
content is empty — or so short that the estimator rounds it to zero — are
skipped by both passes and dropped by the merge); every kept record is the
original object with unchanged content, the recomputed total equals the
full total, and the compression ratio is exactly 0. -/
theorem C7_full_front_budget (msgs : List Message) (f b : ℤ)
    (hT : 0 < total_cost msgs) (hF : total_cost msgs ≤ f.toNat) :
    (extract_key_messages msgs f b).1 = msgs.filter (fun m => message_cost m != 0) ∧
      (extract_key_messages msgs f b).2.extracted_tokens = total_cost msgs ∧
      (extract_key_messages msgs f b).2.compression_ratio = 0 := by
  have hm : ¬ msgs = [] := by
    intro h
    subst h
    simp [total_cost] at hT
  obtain ⟨hext, hact, htot⟩ := extract_key_messages_spec msgs f b hm
  have hfr : frontRun msgs f.toNat
      = { store := msgs,
          selWhole :=
            ((message_tokens_enum msgs).filter (fun x => x.2.2 != 0)).map (fun x => x.1),
          boundary := none,
          used := (0 : ℕ) + ((message_tokens_enum msgs).map (fun x => x.2.2)).sum } := by
    unfold frontRun
    rw [frontLoop_all_fit f.toNat (message_tokens_enum msgs) ⟨msgs, [], none, 0⟩
      (by rw [mte_tokens_sum]; simpa using hF)]
    simp
  have hbk : backRun msgs f.toNat b.toNat
      = { store := msgs, selWhole := [], boundary := none, used := 0 } := by
    unfold backRun
    rw [hfr]
    dsimp only
    apply backLoop_all_skipped
    intro x hx
    by_cases hz : x.2.2 = 0
    · exact Or.inl hz
    · right
      have hx' := List.mem_reverse.mp hx
      exact List.mem_map_of_mem _ (List.mem_filter.mpr ⟨hx', by simpa using hz⟩)
  rw [hfr, hbk] at hext
  dsimp only at hext
  simp only [Option.toList_none, List.append_nil] at hext
  -- the merge keeps exactly the records of nonzero cost
  have hcond : ∀ i ∈ List.range msgs.length,
      (fun i => if (((message_tokens_enum msgs).filter (fun x => x.2.2 != 0)).map
              (fun x => x.1)).any
            (fun j => decide (msgs.getD i default = msgs.getD j default))
          then some (msgs.getD i default) else none) i
        = (fun i => if (fun m => message_cost m != 0) (msgs.getD i default)
            then some (msgs.getD i default) else none) i := by
    intro i hi
    dsimp only
    have hi' : i < msgs.length := List.mem_range.mp hi
    by_cases hz : message_cost (msgs.getD i default) = 0
    · have hFa : (((message_tokens_enum msgs).filter (fun x => x.2.2 != 0)).map
            (fun x => x.1)).any
            (fun j => decide (msgs.getD i default = msgs.getD j default)) = false := by
        rw [List.any_eq_false]
        intro j hj
        simp only [decide_eq_true_eq]
        intro hEq
        obtain ⟨x, hxf, rfl⟩ := List.mem_map.mp hj
        obtain ⟨hxm, hxz⟩ := List.mem_filter.mp hxf
        have hxc := (mte_mem_spec msgs x hxm).2
        rw [hxc] at hxz
        have : message_cost (msgs.getD i default) = message_cost (msgs.getD x.1 default) :=
          congrArg message_cost hEq
        rw [hz] at this
        exact (by simpa using hxz : message_cost (msgs.getD x.1 default) ≠ 0) this.symm
      have hFn : ¬ ((((message_tokens_enum msgs).filter (fun x => x.2.2 != 0)).map
            (fun x => x.1)).any
            (fun j => decide (msgs.getD i default = msgs.getD j default)) = true) := by
        rw [hFa]
        exact Bool.false_ne_true
      have hz' : ¬ ((message_cost (msgs.getD i default) != 0) = true) :=
        fun hc => absurd hz (by simpa using hc)
      rw [if_neg hFn, if_neg hz']
    · have hmem : i ∈ ((message_tokens_enum msgs).filter (fun x => x.2.2 != 0)).map
          (fun x => x.1) := by
        have hx : (i, msgChars (msgs.getD i default), message_cost (msgs.getD i default))
            ∈ message_tokens_enum msgs := by
          unfold message_tokens_enum
          exact List.mem_map_of_mem _ (List.mem_range.mpr hi')
        exact List.mem_map_of_mem _ (List.mem_filter.mpr ⟨hx, by simpa using hz⟩)
      have hT' : (((message_tokens_enum msgs).filter (fun x => x.2.2 != 0)).map
            (fun x => x.1)).any
            (fun j => decide (msgs.getD i default = msgs.getD j default)) = true :=
        List.any_eq_true.mpr ⟨i, hmem, by simp⟩
      have hz' : (message_cost (msgs.getD i default) != 0) = true := by
        simpa using hz
      rw [if_pos hT', if_pos hz']
  rw [List.filterMap_congr hcond, filterMap_if_getD msgs (fun m => message_cost m != 0)] at hext
  refine ⟨hext, ?_, ?_⟩
  · rw [hact, hext, sum_message_cost_filter]
    rfl
  · rw [extract_stats_ratio msgs f b hm, htot, if_pos hT, hact, hext, sum_message_cost_filter]
    rw [show ((msgs.map message_cost).sum) = total_cost msgs from rfl]
    have hQ : (total_cost msgs : ℚ) ≠ 0 :=
      Nat.cast_ne_zero.mpr (Nat.pos_iff_ne_zero.mp hT)
    rw [div_self hQ]
    ring

/-- Witness for `C7_full_front_budget` at a concrete input. -/
theorem C7_full_front_budget_witness :
    0 < total_cost [strMsg "aaaaaaaaaaaaaaaaaaaaaaaaaaaaaaaaaaa"] ∧
      total_cost [strMsg "aaaaaaaaaaaaaaaaaaaaaaaaaaaaaaaaaaa"] ≤ (1000 : ℤ).toNat ∧
      (extract_key_messages [strMsg "aaaaaaaaaaaaaaaaaaaaaaaaaaaaaaaaaaa"] 1000 0).1
        = [strMsg "aaaaaaaaaaaaaaaaaaaaaaaaaaaaaaaaaaa"].filter (fun m => message_cost m != 0) ∧
      (extract_key_messages [strMsg "aaaaaaaaaaaaaaaaaaaaaaaaaaaaaaaaaaa"] 1000 0).2.compression_ratio
        = 0 :=
  ⟨by decide, by decide,
    (C7_full_front_budget [strMsg "aaaaaaaaaaaaaaaaaaaaaaaaaaaaaaaaaaa"] 1000 0
      (by decide) (by decide)).1,
    (C7_full_front_budget [strMsg "aaaaaaaaaaaaaaaaaaaaaaaaaaaaaaaaaaa"] 1000 0
      (by decide) (by decide)).2.2⟩

/-- **Claim C7, counterexample** (to "every input record present").  A
record with empty extracted content is dropped even when the front budget
covers the whole transcript: with a zero-cost first record the output is
just the second record, not the whole transcript. -/
theorem C7_counterexample :
    total_cost [strMsg "", strMsg "rec00 xxxxxxxxxxxxxxxxxxxxxxxxxxxxx"] = 10 ∧
      (10 : ℤ) ≤ 1000 ∧
      (extract_key_messages [strMsg "", strMsg "rec00 xxxxxxxxxxxxxxxxxxxxxxxxxxxxx"] 1000 0).1
        = [strMsg "rec00 xxxxxxxxxxxxxxxxxxxxxxxxxxxxx"] ∧
      (extract_key_messages [strMsg "", strMsg "rec00 xxxxxxxxxxxxxxxxxxxxxxxxxxxxx"] 1000 0).1
        ≠ [strMsg "", strMsg "rec00 xxxxxxxxxxxxxxxxxxxxxxxxxxxxx"] :=
  ⟨by decide, by decide, by decide, by decide⟩

/-! ## Claim C10: zero-cost records never appear in the output -/

theorem getD_set_self (L : List Message) (i : ℕ) (v : Message) (h : i < L.length) :
    (L.set i v).getD i default = v := by
  rw [List.getD_eq_getElem?_getD, List.getElem?_set_eq_of_lt v h]
  rfl

theorem getD_set_ne (L : List Message) (i j : ℕ) (v : Message) (h : i ≠ j) :
    (L.set i v).getD j default = L.getD j default := by
  rw [List.getD_eq_getElem?_getD, List.getD_eq_getElem?_getD, List.getElem?_set_ne h]

/-- The string a front cut writes (cut text plus the 16-character marker)
is at least 10 characters long. -/
theorem front_cut_string_length (tc : List Char) :
    10 ≤ (String.mk tc ++ FRONT_TRUNC_MARKER).length := by
  show 10 ≤ (tc ++ FRONT_TRUNC_MARKER.data).length
  rw [List.length_append]
  have h16 : FRONT_TRUNC_MARKER.data.length = 16 := rfl
  omega

/-- The string a back cut writes (the 17-character marker plus kept
suffix) is at least 10 characters long. -/
theorem back_cut_string_length (tr : List Char) :
    10 ≤ (BACK_OMIT_MARKER ++ String.mk tr).length := by
  show 10 ≤ (BACK_OMIT_MARKER.data ++ tr).length
  rw [List.length_append]
  have h17 : BACK_OMIT_MARKER.data.length = 17 := rfl
  omega

/-- Through the front pass every selected index (whole or boundary) points
at a store record of nonzero cost: zero-token records are skipped before
selection (line 531-533), and a cut boundary record keeps at least the
written marker text. -/
theorem frontLoop_sel_cost (F : ℕ) (l : List (ℕ × List Char × ℕ)) :
    ∀ st : PassState,
      (∀ x ∈ l, x.2.2 ≠ 0 → message_cost (st.store.getD x.1 default) ≠ 0) →
      (∀ x ∈ l, x.1 < st.store.length) →
      (l.map (fun x => x.1)).Nodup →
      (∀ x ∈ l, x.1 ∉ st.selWhole) →
      (∀ j ∈ st.selWhole ++ st.boundary.toList,
        message_cost (st.store.getD j default) ≠ 0) →
      ∀ j ∈ (frontLoop F l st).selWhole ++ (frontLoop F l st).boundary.toList,
        message_cost ((frontLoop F l st).store.getD j default) ≠ 0 := by
  induction l with
  | nil =>
    intro st _ _ _ _ hsel0
    exact hsel0
  | cons x rest ih =>
    intro st hS hrange hnd hfresh hsel0
    obtain ⟨i, content, tokens⟩ := x
    simp only [List.map_cons] at hnd
    obtain ⟨hni, hndr⟩ := List.nodup_cons.mp hnd
    unfold frontLoop
    dsimp only
    split_ifs with h1 h2 h3
    · exact ih st (fun y hy => hS y (List.mem_cons_of_mem _ hy))
        (fun y hy => hrange y (List.mem_cons_of_mem _ hy)) hndr
        (fun y hy => hfresh y (List.mem_cons_of_mem _ hy)) hsel0
    · refine ih _ (fun y hy => hS y (List.mem_cons_of_mem _ hy))
        (fun y hy => hrange y (List.mem_cons_of_mem _ hy)) hndr ?_ ?_
      · intro y hy
        dsimp only
        rw [List.mem_append]
        push_neg
        refine ⟨hfresh y (List.mem_cons_of_mem _ hy), ?_⟩
        rw [List.mem_singleton]
        intro hyi
        exact hni (by rw [← hyi]; exact List.mem_map_of_mem _ hy)
      · intro j hj
        dsimp only at hj ⊢
        rcases List.mem_append.mp hj with hj1 | hj2
        · rcases List.mem_append.mp hj1 with hj3 | hj4
          · exact hsel0 j (List.mem_append_left _ hj3)
          · rw [List.mem_singleton] at hj4
            subst hj4
            exact hS (j, content, tokens) (List.mem_cons_self _ _) h1
        · exact hsel0 j (List.mem_append_right _ hj2)
    · intro j hj
      dsimp only at hj ⊢
      rcases List.mem_append.mp hj with hj1 | hj2
      · have hji : j ≠ i := by
          intro h
          rw [h] at hj1
          exact hfresh (i, content, tokens) (List.mem_cons_self _ _) hj1
        rw [getD_set_ne _ _ _ _ (Ne.symm hji)]
        exact hsel0 j (List.mem_append_left _ hj1)
      · have hji : j = i := by
          rw [show (some i : Option ℕ).toList = [i] from rfl] at hj2
          exact List.mem_singleton.mp hj2
        subst hji
        rw [getD_set_self _ _ _ (hrange (j, content, tokens) (List.mem_cons_self _ _))]
        exact message_cost_truncEdit_ne_zero _ _
          (hS (j, content, tokens) (List.mem_cons_self _ _) h1)
          (front_cut_string_length _)
    · exact hsel0

/-- The store the front pass leaves behind: either unchanged, or exactly
one record overwritten by a nonzero-cost truncation of its old value. -/
theorem frontLoop_store_spec (F : ℕ) (l : List (ℕ × List Char × ℕ)) :
    ∀ st : PassState,
      (∀ x ∈ l, x.2.2 ≠ 0 → message_cost (st.store.getD x.1 default) ≠ 0) →
      (∀ x ∈ l, x.1 < st.store.length) →
      ((frontLoop F l st).store = st.store ∨
        ∃ i s, i < st.store.length ∧
          message_cost (st.store.getD i default) ≠ 0 ∧ 10 ≤ s.length ∧
          (frontLoop F l st).store
            = st.store.set i (truncEdit (st.store.getD i default) s)) := by
  induction l with
  | nil =>
    intro st _ _
    exact Or.inl rfl
  | cons x rest ih =>
    intro st hS hrange
    obtain ⟨i, content, tokens⟩ := x
    unfold frontLoop
    dsimp only
    split_ifs with h1 h2 h3
    · exact ih st (fun y hy => hS y (List.mem_cons_of_mem _ hy))
        (fun y hy => hrange y (List.mem_cons_of_mem _ hy))
    · exact ih _ (fun y hy => hS y (List.mem_cons_of_mem _ hy))
        (fun y hy => hrange y (List.mem_cons_of_mem _ hy))
    · exact Or.inr ⟨i,
        String.mk (_binary_search_truncate content (F - st.used)) ++ FRONT_TRUNC_MARKER,
        hrange (i, content, tokens) (List.mem_cons_self _ _),
        hS (i, content, tokens) (List.mem_cons_self _ _) h1,
        front_cut_string_length _, rfl⟩
    · exact Or.inl rfl

/-- Back-pass analogue of `frontLoop_sel_cost`: every selected index
points at a store record of nonzero cost. -/
theorem backLoop_sel_cost (B : ℕ) (fw : List ℕ) (l : List (ℕ × List Char × ℕ)) :
    ∀ st : PassState,
      (∀ x ∈ l, x.2.2 ≠ 0 → message_cost (st.store.getD x.1 default) ≠ 0) →
      (∀ x ∈ l, x.1 < st.store.length) →
      (l.map (fun x => x.1)).Nodup →
      (∀ x ∈ l, x.1 ∉ st.selWhole) →
      (∀ j ∈ st.selWhole ++ st.boundary.toList,
        message_cost (st.store.getD j default) ≠ 0) →
      ∀ j ∈ (backLoop B fw l st).selWhole ++ (backLoop B fw l st).boundary.toList,
        message_cost ((backLoop B fw l st).store.getD j default) ≠ 0 := by
  induction l with
  | nil =>
    intro st _ _ _ _ hsel0
    exact hsel0
  | cons x rest ih =>
    intro st hS hrange hnd hfresh hsel0
    obtain ⟨i, content, tokens⟩ := x
    simp only [List.map_cons] at hnd
    obtain ⟨hni, hndr⟩ := List.nodup_cons.mp hnd
    unfold backLoop
    dsimp only
    split_ifs with h1 h2 h3 h4
    · exact ih st (fun y hy => hS y (List.mem_cons_of_mem _ hy))
        (fun y hy => hrange y (List.mem_cons_of_mem _ hy)) hndr
        (fun y hy => hfresh y (List.mem_cons_of_mem _ hy)) hsel0
    · exact ih st (fun y hy => hS y (List.mem_cons_of_mem _ hy))
        (fun y hy => hrange y (List.mem_cons_of_mem _ hy)) hndr
        (fun y hy => hfresh y (List.mem_cons_of_mem _ hy)) hsel0
    · refine ih _ (fun y hy => hS y (List.mem_cons_of_mem _ hy))
        (fun y hy => hrange y (List.mem_cons_of_mem _ hy)) hndr ?_ ?_
      · intro y hy
        dsimp only
        rw [List.mem_append]
        push_neg
        refine ⟨hfresh y (List.mem_cons_of_mem _ hy), ?_⟩
        rw [List.mem_singleton]
        intro hyi
        exact hni (by rw [← hyi]; exact List.mem_map_of_mem _ hy)
      · intro j hj
        dsimp only at hj ⊢
        rcases List.mem_append.mp hj with hj1 | hj2
        · rcases List.mem_append.mp hj1 with hj3 | hj4
          · exact hsel0 j (List.mem_append_left _ hj3)
          · rw [List.mem_singleton] at hj4
            subst hj4
            exact hS (j, content, tokens) (List.mem_cons_self _ _) h1
        · exact hsel0 j (List.mem_append_right _ hj2)
    · intro j hj
      dsimp only at hj ⊢
      rcases List.mem_append.mp hj with hj1 | hj2
      · have hji : j ≠ i := by
          intro h
          rw [h] at hj1
          exact hfresh (i, content, tokens) (List.mem_cons_self _ _) hj1
        rw [getD_set_ne _ _ _ _ (Ne.symm hji)]
        exact hsel0 j (List.mem_append_left _ hj1)
      · have hji : j = i := by
          rw [show (some i : Option ℕ).toList = [i] from rfl] at hj2
          exact List.mem_singleton.mp hj2
        subst hji
        rw [getD_set_self _ _ _ (hrange (j, content, tokens) (List.mem_cons_self _ _))]
        exact message_cost_truncEdit_ne_zero _ _
          (hS (j, content, tokens) (List.mem_cons_self _ _) h1)
          (back_cut_string_length _)
    · exact hsel0

/-- The store the back pass leaves behind: either unchanged, or exactly one
record (not kept whole by the front pass) overwritten by a truncation,
whose written string is at least 10 characters long. -/
theorem backLoop_store_spec (B : ℕ) (fw : List ℕ) (l : List (ℕ × List Char × ℕ)) :
    ∀ st : PassState,
      (∀ x ∈ l, x.1 < st.store.length) →
      ((backLoop B fw l st).store = st.store ∨
        ∃ i s, i < st.store.length ∧ i ∉ fw ∧ 10 ≤ s.length ∧
          (backLoop B fw l st).store
            = st.store.set i (truncEdit (st.store.getD i default) s)) := by
  induction l with
  | nil =>
    intro st _
    exact Or.inl rfl
  | cons x rest ih =>
    intro st hrange
    obtain ⟨i, content, tokens⟩ := x
    unfold backLoop
    dsimp only
    split_ifs with h1 h2 h3 h4
    · exact ih st (fun y hy => hrange y (List.mem_cons_of_mem _ hy))
    · exact ih st (fun y hy => hrange y (List.mem_cons_of_mem _ hy))
    · exact ih _ (fun y hy => hrange y (List.mem_cons_of_mem _ hy))
    · exact Or.inr ⟨i,
        BACK_OMIT_MARKER
          ++ String.mk (_binary_search_truncate content.reverse (B - st.used)).reverse,
        hrange (i, content, tokens) (List.mem_cons_self _ _), h2,
        back_cut_string_length _, rfl⟩
    · exact Or.inl rfl

/-- **Claim C10.**  A record whose extracted content is empty (token cost
0) never appears in the output of `extract_key_messages`, for every budget
pair: both passes skip zero-token records before selection, a cut boundary
record keeps at least its marker text, and the merge emits only records
value-equal to a selected one — whose cost is therefore nonzero. -/
theorem C10_no_zero_cost_records (msgs : List Message) (f b : ℤ) :
    ∀ m ∈ (extract_key_messages msgs f b).1, message_cost m ≠ 0 := by
  intro m hm0
  by_cases hE : msgs = []
  · subst hE
    simp [extract_key_messages, extract_key_messages_full] at hm0
  · obtain ⟨hout, -, -⟩ := extract_key_messages_spec msgs f b hE
    rw [hout] at hm0
    rw [List.mem_filterMap] at hm0
    obtain ⟨i, hi, hif⟩ := hm0
    have hcohf : ∀ x ∈ message_tokens_enum msgs, x.2.2 ≠ 0 →
        message_cost (msgs.getD x.1 default) ≠ 0 := by
      intro x hx ht
      rw [← (mte_mem_spec msgs x hx).2]
      exact ht
    have hrangef : ∀ x ∈ message_tokens_enum msgs, x.1 < msgs.length :=
      fun x hx => (mte_mem_spec msgs x hx).1
    have hndf : ((message_tokens_enum msgs).map (fun x => x.1)).Nodup := by
      rw [mte_map_fst]
      exact List.nodup_range _
    have frontSel : ∀ j ∈ (frontRun msgs f.toNat).selWhole
          ++ (frontRun msgs f.toNat).boundary.toList,
        message_cost ((frontRun msgs f.toNat).store.getD j default) ≠ 0 :=
      frontLoop_sel_cost f.toNat (message_tokens_enum msgs) ⟨msgs, [], none, 0⟩
        hcohf hrangef hndf (fun x _ => List.not_mem_nil x.1)
        (fun j hj => absurd hj (List.not_mem_nil j))
    have frontStore : (frontRun msgs f.toNat).store = msgs ∨
        ∃ i0 s0, i0 < msgs.length ∧
          message_cost (msgs.getD i0 default) ≠ 0 ∧ 10 ≤ s0.length ∧
          (frontRun msgs f.toNat).store
            = msgs.set i0 (truncEdit (msgs.getD i0 default) s0) :=
      frontLoop_store_spec f.toNat (message_tokens_enum msgs) ⟨msgs, [], none, 0⟩
        hcohf hrangef
    have hlenf : (frontRun msgs f.toNat).store.length = msgs.length := by
      rcases frontStore with h | ⟨i0, s0, _, _, _, hset⟩
      · rw [h]
      · rw [hset, List.length_set]
    have hSb : ∀ x ∈ (message_tokens_enum msgs).reverse, x.2.2 ≠ 0 →
        message_cost ((frontRun msgs f.toNat).store.getD x.1 default) ≠ 0 := by
      intro x hx ht
      have hx' := List.mem_reverse.mp hx
      have hmsgs : message_cost (msgs.getD x.1 default) ≠ 0 := by
        rw [← (mte_mem_spec msgs x hx').2]
        exact ht
      rcases frontStore with h | ⟨i0, s0, hi0, hc0, hs0, hset⟩
      · rw [h]
        exact hmsgs
      · rw [hset]
        by_cases hxi : x.1 = i0
        · rw [← hxi] at hi0 hc0 ⊢
          rw [getD_set_self _ _ _ hi0]
          exact message_cost_truncEdit_ne_zero _ _ hc0 hs0
        · rw [getD_set_ne _ _ _ _ (fun h => hxi h.symm)]
          exact hmsgs
    have hrangeb : ∀ x ∈ (message_tokens_enum msgs).reverse,
        x.1 < (frontRun msgs f.toNat).store.length := by
      intro x hx
      rw [hlenf]
      exact (mte_mem_spec msgs x (List.mem_reverse.mp hx)).1
    have hndb : (((message_tokens_enum msgs).reverse).map (fun x => x.1)).Nodup := by
      rw [List.map_reverse]
      exact List.nodup_reverse.mpr hndf
    have backSel : ∀ j ∈ (backRun msgs f.toNat b.toNat).selWhole
          ++ (backRun msgs f.toNat b.toNat).boundary.toList,
        message_cost ((backRun msgs f.toNat b.toNat).store.getD j default) ≠ 0 :=
      backLoop_sel_cost b.toNat (frontRun msgs f.toNat).selWhole
        ((message_tokens_enum msgs).reverse)
        ⟨(frontRun msgs f.toNat).store, [], none, 0⟩
        hSb hrangeb hndb (fun x _ => List.not_mem_nil x.1)
        (fun j hj => absurd hj (List.not_mem_nil j))
    have backStore : (backRun msgs f.toNat b.toNat).store = (frontRun msgs f.toNat).store ∨
        ∃ i1 s1, i1 < (frontRun msgs f.toNat).store.length ∧
          i1 ∉ (frontRun msgs f.toNat).selWhole ∧ 10 ≤ s1.length ∧
          (backRun msgs f.toNat b.toNat).store
            = (frontRun msgs f.toNat).store.set i1
              (truncEdit ((frontRun msgs f.toNat).store.getD i1 default) s1) :=
      backLoop_store_spec b.toNat (frontRun msgs f.toNat).selWhole
        ((message_tokens_enum msgs).reverse)
        ⟨(frontRun msgs f.toNat).store, [], none, 0⟩ hrangeb
    have key : ∀ j ∈ ((frontRun msgs f.toNat).selWhole
          ++ (frontRun msgs f.toNat).boundary.toList)
        ++ ((backRun msgs f.toNat b.toNat).selWhole
          ++ (backRun msgs f.toNat b.toNat).boundary.toList),
        message_cost ((backRun msgs f.toNat b.toNat).store.getD j default) ≠ 0 := by
      intro j hj
      rcases List.mem_append.mp hj with hjf | hjb
      · have hcf := frontSel j hjf
        rcases backStore with h | ⟨i1, s1, hi1, hifw, hs1, hset⟩
        · rw [h]
          exact hcf
        · rw [hset]
          by_cases hji : j = i1
          · rw [← hji] at hi1 ⊢
            rw [getD_set_self _ _ _ hi1]
            exact message_cost_truncEdit_ne_zero _ _ hcf hs1
          · rw [getD_set_ne _ _ _ _ (fun h => hji h.symm)]
            exact hcf
      · exact backSel j hjb
    split_ifs at hif with hC
    · obtain ⟨j, hjsel, hjdec⟩ := List.any_eq_true.mp hC
      have hji : (backRun msgs f.toNat b.toNat).store.getD i default
          = (backRun msgs f.toNat b.toNat).store.getD j default :=
        of_decide_eq_true hjdec
      rw [← Option.some.inj hif, hji]
      exact key j hjsel

/-- Witness for `C10_no_zero_cost_records` at a concrete input containing
a zero-cost record: the surviving record's membership in the output is
discharged by evaluation. -/
theorem C10_no_zero_cost_records_witness :
    message_cost (strMsg "rec00 xxxxxxxxxxxxxxxxxxxxxxxxxxxxx") ≠ 0 :=
  C10_no_zero_cost_records [strMsg "", strMsg "rec00 xxxxxxxxxxxxxxxxxxxxxxxxxxxxx"] 1000 0
    (strMsg "rec00 xxxxxxxxxxxxxxxxxxxxxxxxxxxxx") (by decide)
